import Mathlib

/-!
Shallow embedding of the preprocessing pipeline of
`scripts/preprocess.py` (shopping-behavior data analysis), together with
theorems settling the specification claims about it.

A pandas `DataFrame` is modelled as a `Table`: a fixed column schema
(name and declared dtype kind) plus a list of rows, each row a list of
cells.  A cell is a rational number (covering the integer and float
columns), a string (covering the `object`/`category` columns) or the
missing value `NaN`, modelled as `Value.null`.
-/

namespace ShopBehavior

/-- One cell of the record table: a numeric value, a categorical/string
value, or a missing value (pandas `NaN`). -/
inductive Value where
  | num (q : ℚ)
  | str (s : String)
  | null
deriving DecidableEq, Repr

/-- The declared dtype of a column, as fixed by the load-time schema:
`np.number`-like dtypes versus `object`/`category` dtypes.  This is the
distinction `clean_data` makes via `select_dtypes`. -/
inductive ColKind where
  | numeric
  | categorical
deriving DecidableEq, Repr

/-- A dataframe: named, kinded columns and a list of rows. -/
structure Table where
  cols : List (String × ColKind)
  rows : List (List Value)
deriving DecidableEq, Repr

instance exceptDecEq {ε α : Type} [DecidableEq ε] [DecidableEq α] :
    DecidableEq (Except ε α) := fun x y =>
  match x, y with
  | .error a, .error b =>
    if h : a = b then .isTrue (by rw [h])
    else .isFalse (fun he => h (by cases he; rfl))
  | .ok a, .ok b =>
    if h : a = b then .isTrue (by rw [h])
    else .isFalse (fun he => h (by cases he; rfl))
  | .error _, .ok _ => .isFalse (fun he => Except.noConfusion he)
  | .ok _, .error _ => .isFalse (fun he => Except.noConfusion he)

/-- The column names of a table (`df.columns`). -/
def names (t : Table) : List String := t.cols.map Prod.fst

/-- The cell of row `r` at column position `i` (missing if the row is
too short). -/
def cellAt (r : List Value) (i : ℕ) : Value := r.getD i Value.null

/-- The column of cells at position `i` (`df[col]` as a list). -/
def colAt (rows : List (List Value)) (i : ℕ) : List Value :=
  rows.map (fun r => cellAt r i)

/-- Look a column up by name; `none` when the name is absent. -/
def getCol (t : Table) (c : String) : Option (List Value) :=
  if c ∈ names t then some (colAt t.rows ((names t).indexOf c)) else none

/-- Well-formedness: every row has exactly one cell per schema column. -/
def wf (t : Table) : Prop := ∀ r ∈ t.rows, r.length = t.cols.length

instance decidableWf (t : Table) : Decidable (wf t) :=
  inferInstanceAs (Decidable (∀ r ∈ t.rows, r.length = t.cols.length))

/-- The dtype kind of column position `i`. -/
def kindAt (t : Table) (i : ℕ) : ColKind :=
  (t.cols.getD i ("", ColKind.categorical)).2

/-- Positions of the numeric columns (`select_dtypes(include=[np.number])`). -/
def numericIdxs (t : Table) : List ℕ :=
  (List.range t.cols.length).filter (fun i => kindAt t i == ColKind.numeric)

/-- Positions of the categorical columns
(`select_dtypes(include=["object", "category"])`). -/
def categoricalIdxs (t : Table) : List ℕ :=
  (List.range t.cols.length).filter (fun i => kindAt t i == ColKind.categorical)

/-- The numeric values of a list of cells; `NaN` and non-numeric cells
contribute nothing (this is `series.dropna()` on a numeric column). -/
def ratsOf (vs : List Value) : List ℚ :=
  vs.filterMap (fun v => match v with | .num q => some q | _ => none)

/-- The non-missing cells of a column (`series.dropna()`). -/
def nonNullCells (vs : List Value) : List Value :=
  vs.filter (fun v => decide (v ≠ Value.null))

/-- `df.drop_duplicates()`: keep the first occurrence of every row value,
drop later exact duplicates.  `seen` accumulates the rows already kept. -/
def dedupRows : List (List Value) → List (List Value) → List (List Value)
  | _, [] => []
  | seen, r :: rs =>
    if r ∈ seen then dedupRows seen rs else r :: dedupRows (r :: seen) rs

/-- `Series.median()` over the given (non-missing) values: mean of the two
middle elements of the sorted list; `none` (pandas `NaN`) on an empty
series. -/
def median (xs : List ℚ) : Option ℚ :=
  if xs = [] then none
  else
    let s := xs.insertionSort (· ≤ ·)
    let n := s.length
    some (if n % 2 = 1 then s.getD (n / 2) 0
          else (s.getD (n / 2 - 1) 0 + s.getD (n / 2) 0) / 2)

/-- Linear interpolation at fractional position `pos` of a sorted list
(numpy's default interpolation for quantiles): between the elements at
`⌊pos⌋` and `⌊pos⌋ + 1`. -/
def interpAt (s : List ℚ) (pos : ℚ) : ℚ :=
  let lo : ℕ := (Int.floor pos).toNat
  let a := s.getD lo 0
  let b := s.getD (lo + 1) a
  a + (pos - (lo : ℚ)) * (b - a)

/-- `Series.quantile(p)` over the given (non-missing) values, with numpy's
default linear interpolation: at fractional position `p * (n - 1)` of the
sorted values.  Returns `0` on an empty series (pandas would give `NaN`;
the callers below never use the value in that case). -/
def quantile (xs : List ℚ) (p : ℚ) : ℚ :=
  if xs = [] then 0
  else
    let s := xs.insertionSort (· ≤ ·)
    interpAt s (p * ((s.length : ℚ) - 1))

/-- Comparison used by pandas when sorting the values a `Series.mode()`
returns (ascending sort; on the mixed `object` dtype numbers sort before
strings). -/
def vle : Value → Value → Bool
  | .null, _ => true
  | _, .null => false
  | .num a, .num b => decide (a ≤ b)
  | .num _, .str _ => true
  | .str _, .num _ => false
  | .str a, .str b => decide (a ≤ b)

/-- `Series.mode()[0]`: the smallest (in pandas' ascending sort order)
among the values of maximal multiplicity; `none` on an empty series, where
`mode()[0]` raises. -/
def modeVal : List Value → Option Value
  | [] => none
  | v :: vs =>
    let all := v :: vs
    let maxCount := (all.map (fun w => all.count w)).foldl Nat.max 0
    let cands := all.filter (fun w => all.count w == maxCount)
    some (cands.foldl (fun a b => if vle b a then b else a) (cands.headD v))

/-- Replace the missing cells of column `i` by `m`
(`df[col] = df[col].fillna(m)`). -/
def fillColRows (rows : List (List Value)) (i : ℕ) (m : Value) :
    List (List Value) :=
  rows.map (fun r => if cellAt r i = Value.null then r.set i m else r)

/-- The numeric half of `clean_data`'s imputation:
`df[num_cols] = df[num_cols].fillna(df[num_cols].median())`.  Each numeric
column is filled with its own median; an all-missing column has median
`NaN` and is left untouched (filling with `NaN` is a no-op). -/
def numericPass (idxs : List ℕ) (rows : List (List Value)) :
    List (List Value) :=
  idxs.foldl (fun rs i =>
    match median (ratsOf (colAt rs i)) with
    | none => rs
    | some m => fillColRows rs i (.num m)) rows

/-- Failure mode of `clean_data`: `df[col].mode()[0]` on an all-missing
categorical column indexes an empty mode series. -/
inductive CleanError where
  | emptyColumn
deriving DecidableEq, Repr

/-- One iteration of `clean_data`'s categorical loop: if the column has a
missing value, fill with `df[col].mode()[0]`; computing the mode of a
column with no non-missing value fails. -/
def categoricalStep (rs : List (List Value)) (i : ℕ) :
    Except CleanError (List (List Value)) :=
  if Value.null ∈ colAt rs i then
    match modeVal (nonNullCells (colAt rs i)) with
    | none => Except.error CleanError.emptyColumn
    | some m => Except.ok (fillColRows rs i m)
  else Except.ok rs

/-- `clean_data`: drop exact-duplicate rows, then impute missing values —
numeric columns by their median, categorical columns (in schema order) by
their mode. -/
def clean_data (t : Table) : Except CleanError Table :=
  let rows0 := dedupRows [] t.rows
  let rows1 := numericPass (numericIdxs t) rows0
  ((categoricalIdxs t).foldlM categoricalStep rows1).map
    (fun rows => { t with rows := rows })

/-! ### Outlier handling (`detect_and_handle_outliers`) -/

/-- Failure mode of `detect_and_handle_outliers` under `action="remove"`:
the boolean mask is indexed by the `dropna()`-ed series, so when the
column contains missing values pandas cannot align the mask with the
frame (`IndexingError: Unalignable boolean Series provided as indexer`). -/
inductive OutlierError where
  | unalignable
deriving DecidableEq, Repr

/-- `(series < lower) | (series > upper)` on one numeric value. -/
def isOutlier (lo hi : ℚ) (q : ℚ) : Bool := decide (q < lo) || decide (hi < q)

/-- `df_out[col] < lower` on one cell: `NaN` compares false. -/
def cellBelow (lo : ℚ) (v : Value) : Bool :=
  match v with | .num q => decide (q < lo) | _ => false

/-- `df_out[col] > upper` on one cell: `NaN` compares false. -/
def cellAbove (hi : ℚ) (v : Value) : Bool :=
  match v with | .num q => decide (hi < q) | _ => false

/-- Outlier test on one cell; `NaN` is never an outlier. -/
def cellOutlier (lo hi : ℚ) (v : Value) : Bool :=
  match v with | .num q => isOutlier lo hi q | _ => false

/-- The body of `detect_and_handle_outliers`' loop for one present column
under `method="iqr"`: IQR bounds from the `dropna()`-ed series, then —
only when outliers exist — cap (two sequential in-place assignments, the
second reading the result of the first) or remove (mask-filter, failing
if the mask cannot be aligned because the column has missing values).
An unrecognised action leaves the rows unchanged. -/
def handleColIqr (threshold : ℚ) (action : String)
    (rows : List (List Value)) (i : ℕ) :
    Except OutlierError (List (List Value)) :=
  let series := ratsOf (colAt rows i)
  let q1 := quantile series (1/4)
  let q3 := quantile series (3/4)
  let iqr := q3 - q1
  let lower := q1 - threshold * iqr
  let upper := q3 + threshold * iqr
  let outlierCount := (series.filter (isOutlier lower upper)).length
  if 0 < outlierCount then
    if action = "cap" then
      let rows1 := rows.map
        (fun r => if cellBelow lower (cellAt r i) then r.set i (.num lower) else r)
      let rows2 := rows1.map
        (fun r => if cellAbove upper (cellAt r i) then r.set i (.num upper) else r)
      Except.ok rows2
    else if action = "remove" then
      if Value.null ∈ colAt rows i then Except.error .unalignable
      else Except.ok (rows.filter (fun r => !(cellOutlier lower upper (cellAt r i))))
    else Except.ok rows
  else Except.ok rows

/-- `detect_and_handle_outliers(df, columns, method, threshold, action)`:
walk the requested columns in order, silently skipping names not present
in the frame; only `method="iqr"` does anything. -/
def detect_and_handle_outliers (t : Table) (columns : List String)
    (method : String) (threshold : ℚ) (action : String) :
    Except OutlierError Table :=
  (columns.foldlM (fun rows c =>
      if c ∈ names t then
        if method = "iqr" then handleColIqr threshold action rows ((names t).indexOf c)
        else Except.ok rows
      else Except.ok rows) t.rows).map
    (fun rows => { t with rows := rows })

/-! ### Feature engineering (`feature_engineering`) -/

/-- The `pd.cut` bin edges for `Age_Group`. -/
def ageBins : List ℚ := [0, 18, 25, 35, 45, 55, 65, 100]

/-- The `Age_Group` labels, in bin order. -/
def ageGroupLabels : List String :=
  ["<18", "18-24", "25-34", "35-44", "45-54", "55-64", "65+"]

/-- `pd.cut(x, bins, labels, right=False)` on one value: every bin —
including the last one — is left-closed and right-open; values outside
every bin are unbucketed (`NaN`). -/
def cutLeftClosed : List ℚ → List String → ℚ → Option String
  | b1 :: b2 :: bs, l :: ls, a =>
    if b1 ≤ a ∧ a < b2 then some l else cutLeftClosed (b2 :: bs) ls a
  | _, _, _ => none

/-- The `Age_Group` bucket of one age value. -/
def ageGroup (a : ℚ) : Option String := cutLeftClosed ageBins ageGroupLabels a

/-- The `Age_Group` cell derived from an `Age` cell (`NaN` and
non-numeric cells are unbucketed). -/
def ageGroupValue : Value → Value
  | .num a => match ageGroup a with | some l => .str l | none => .null
  | _ => .null

/-- `df["Age_Group"].cat.codes` on one cell: the label's position in the
category order, `-1` for `NaN`. -/
def ordinalOfLabel : Value → Value
  | .str l => .num ((ageGroupLabels.indexOf l : ℕ) : ℚ)
  | _ => .num (-1)

/-- `pd.cut` of `Purchase Amount (USD)` with bins
`(-inf, 30], (30, 50], (50, 75], (75, 100], (100, inf)` (`right=True`). -/
def purchaseCategory (v : ℚ) : String :=
  if v ≤ 30 then "Very Low"
  else if v ≤ 50 then "Low"
  else if v ≤ 75 then "Medium"
  else if v ≤ 100 then "High"
  else "Very High"

/-- The `Purchase_Category` cell derived from a purchase-amount cell. -/
def purchaseCategoryValue : Value → Value
  | .num v => .str (purchaseCategory v)
  | _ => .null

/-- `str(...)` of a cell, as `astype(str)` produces it: `NaN` becomes the
string `"nan"`. -/
def vStr : Value → String
  | .str s => s
  | .num q => toString q
  | .null => "nan"

/-- `df[name] = values` computed row-wise: replace the column in place if
the name exists, otherwise append it on the right. -/
def setColWith (t : Table) (c : String) (k : ColKind)
    (f : List Value → Value) : Table :=
  if c ∈ names t then
    let i := (names t).indexOf c
    { cols := t.cols.set i (c, k),
      rows := t.rows.map (fun r => r.set i (f r)) }
  else
    { cols := t.cols ++ [(c, k)],
      rows := t.rows.map (fun r => r ++ [f r]) }

/-- Step 1 of `feature_engineering`: bucket `Age` into `Age_Group`, then
derive `Age_Group_Ordinal` as the category codes of the bucket column
just written; skipped when `Age` is absent. -/
def ageStep (t : Table) : Table :=
  if "Age" ∈ names t then
    let i := (names t).indexOf "Age"
    let ta := setColWith t "Age_Group" .categorical
      (fun r => ageGroupValue (cellAt r i))
    let j := (names ta).indexOf "Age_Group"
    setColWith ta "Age_Group_Ordinal" .numeric
      (fun r => ordinalOfLabel (cellAt r j))
  else t

/-- Step 2 of `feature_engineering`: bucket the purchase amount. -/
def purchaseStep (t : Table) : Table :=
  if "Purchase Amount (USD)" ∈ names t then
    let i := (names t).indexOf "Purchase Amount (USD)"
    setColWith t "Purchase_Category" .categorical
      (fun r => purchaseCategoryValue (cellAt r i))
  else t

/-- Step 3 of `feature_engineering`: the discount/promo interaction
(`(df[..] == "Yes") | (df[..] == "Yes")`, `NaN` comparing false). -/
def discountStep (t : Table) : Table :=
  if "Discount Applied" ∈ names t ∧ "Promo Code Used" ∈ names t then
    let i := (names t).indexOf "Discount Applied"
    let j := (names t).indexOf "Promo Code Used"
    setColWith t "Discount_or_Promo" .categorical
      (fun r => .str (if cellAt r i = .str "Yes" ∨ cellAt r j = .str "Yes"
                      then "Yes" else "No"))
  else t

/-- Step 4 of `feature_engineering`: the repeat-customer flag
(`Previous Purchases >= 10`, `NaN` comparing false, cast to 0/1). -/
def repeatStep (t : Table) : Table :=
  if "Previous Purchases" ∈ names t then
    let i := (names t).indexOf "Previous Purchases"
    setColWith t "Is_Repeat_Customer" .numeric
      (fun r => .num (match cellAt r i with
                      | .num p => if 10 ≤ p then 1 else 0
                      | _ => 0))
  else t

/-- Step 5 of `feature_engineering`: `Season + "_" + Category` on the
string casts. -/
def seasonStep (t : Table) : Table :=
  if "Season" ∈ names t ∧ "Category" ∈ names t then
    let i := (names t).indexOf "Season"
    let j := (names t).indexOf "Category"
    setColWith t "Season_Category" .categorical
      (fun r => .str (vStr (cellAt r i) ++ "_" ++ vStr (cellAt r j)))
  else t

/-- `feature_engineering(df)`: derive `Age_Group` (+ ordinal codes),
`Purchase_Category`, `Discount_or_Promo`, `Is_Repeat_Customer` and
`Season_Category`, each step silently skipped when its source columns are
absent. -/
def feature_engineering (t : Table) : Table :=
  seasonStep (repeatStep (discountStep (purchaseStep (ageStep t))))

/-- The names of the columns `feature_engineering` derives. -/
def derivedNames : List String :=
  ["Age_Group", "Age_Group_Ordinal", "Purchase_Category",
   "Discount_or_Promo", "Is_Repeat_Customer", "Season_Category"]

/-! ### Label encoding (`encode_categorical`, `cols_label` branch) -/

/-- `LabelEncoder().fit(...).classes_`: the distinct values, sorted
ascending (`np.unique`). -/
def sortedClasses (xs : List String) : List String :=
  xs.dedup.insertionSort (· ≤ ·)

/-- One iteration of the label-encoding loop:
`df_enc[col] = LabelEncoder().fit_transform(df_enc[col].astype(str))` —
each value of a present column is replaced (in place, dtype becoming
numeric) by the position of its string cast among the sorted distinct
string casts of the column; absent columns are skipped. -/
def encodeStep (tb : Table) (c : String) : Table :=
  if c ∈ names tb then
    setColWith tb c ColKind.numeric
      (fun r => .num (((sortedClasses
          ((colAt tb.rows ((names tb).indexOf c)).map vStr)).indexOf
        (vStr (cellAt r ((names tb).indexOf c))) : ℕ) : ℚ))
  else tb

/-- The label-encoding branch of `encode_categorical`
(`cols_onehot=None`): run the `LabelEncoder` loop over the requested
columns in order. -/
def encode_categorical_labels (t : Table) (colsLabel : List String) : Table :=
  colsLabel.foldl encodeStep t

/-- The bijection contract C7 asserts for the codes of one column:
writing `xs` for the column's string casts, `classes` for the fitted
sorted distinct values and `n` for the number of distinct values, every
code is below `n`, two values get the same code exactly when they are
equal, every integer in `0..n-1` is hit, and the assignment follows the
sorted order of the distinct values. -/
def LabelCodeSpec (xs : List String) : Prop :=
  (∀ s ∈ xs, (sortedClasses xs).indexOf s < xs.dedup.length) ∧
  (∀ s ∈ xs, ∀ u ∈ xs,
    ((sortedClasses xs).indexOf s = (sortedClasses xs).indexOf u ↔ s = u)) ∧
  (∀ k < xs.dedup.length, ∃ s ∈ xs, (sortedClasses xs).indexOf s = k) ∧
  (∀ s ∈ xs, ∀ u ∈ xs, s < u →
    (sortedClasses xs).indexOf s < (sortedClasses xs).indexOf u)

/-! ### Loading (`load_data`) -/

/-- The outcome of one `pd.read_csv` attempt on a path: the file is
missing, the file exists but loading/parsing fails, or a table results. -/
inductive ReadResult where
  | notFound
  | parseFailure
  | table (t : Table)

/-- The errors `load_data` re-raises: `FileNotFoundError`, or the
wrapped generic load failure. -/
inductive LoadError where
  | notFound
  | loadError
deriving DecidableEq, Repr

/-- `load_data(file_path)` over an abstract filesystem `fs` standing for
`pd.read_csv`'s behaviour on each path: both `except` arms log and
re-raise, a successful read is returned as-is. -/
def load_data (fs : String → ReadResult) (path : String) :
    Except LoadError Table :=
  match fs path with
  | .notFound => Except.error LoadError.notFound
  | .parseFailure => Except.error LoadError.loadError
  | .table t => Except.ok t

/-! ### Claim-side (specification) definitions -/

/-- The clamp a single cell receives under `action="cap"`: numeric values
below `lo` become `lo`, above `hi` become `hi`; missing and non-numeric
cells are untouched. -/
def capCell (lo hi : ℚ) (v : Value) : Value :=
  match v with
  | .num q => .num (if q < lo then lo else if hi < q then hi else q)
  | w => w

/-- Whether a cell holds a number. -/
def isNumCell : Value → Bool
  | .num _ => true
  | _ => false

/-- Schema invariant used as a hypothesis: the cell is a number or
missing (what a numeric-dtype column can hold). -/
def numOrNull : Value → Bool
  | .str _ => false
  | _ => true

/-- The success contract C3 asserts for `clean_data`: the result keeps
the schema; the duplicate-removal stage keeps exactly the distinct input
rows (first occurrences, no duplicates left); imputation preserves row
count and every already-present cell; every missing cell is filled
according to the type-dependent policy — in a numeric column by that
column's median over its non-missing (deduplicated) values, in a
categorical column by that column's mode — and the only missing cells
that survive sit in numeric columns that were entirely missing (their
median is undefined, so the fill is a no-op). -/
def CleanSpec (t : Table) : Prop :=
  ∃ t' : Table, clean_data t = Except.ok t' ∧ t'.cols = t.cols ∧
    (dedupRows [] t.rows).Nodup ∧
    (∀ r, r ∈ dedupRows [] t.rows ↔ r ∈ t.rows) ∧
    t'.rows.length = (dedupRows [] t.rows).length ∧
    (∀ j < t'.rows.length, ∀ i,
      cellAt ((dedupRows [] t.rows).getD j []) i ≠ Value.null →
      cellAt (t'.rows.getD j []) i = cellAt ((dedupRows [] t.rows).getD j []) i) ∧
    (∀ j < t'.rows.length, ∀ i < t.cols.length,
      cellAt ((dedupRows [] t.rows).getD j []) i = Value.null →
        (kindAt t i = ColKind.numeric ∧
          cellAt (t'.rows.getD j []) i =
            (match median (ratsOf (colAt (dedupRows [] t.rows) i)) with
             | some m => Value.num m
             | none => Value.null)) ∨
        (kindAt t i = ColKind.categorical ∧
          ∃ m, modeVal (nonNullCells (colAt (dedupRows [] t.rows) i)) = some m ∧
            cellAt (t'.rows.getD j []) i = m)) ∧
    (∀ r ∈ t'.rows, ∀ i < t.cols.length,
      cellAt r i = Value.null →
        kindAt t i = ColKind.numeric ∧ ∀ r0 ∈ t.rows, cellAt r0 i = Value.null)

/-- `Q1 - k*IQR` of column `i`, over the column's non-missing values. -/
def iqrLowerOf (rows : List (List Value)) (i : ℕ) (k : ℚ) : ℚ :=
  quantile (ratsOf (colAt rows i)) (1/4) -
    k * (quantile (ratsOf (colAt rows i)) (3/4) -
      quantile (ratsOf (colAt rows i)) (1/4))

/-- `Q3 + k*IQR` of column `i`, over the column's non-missing values. -/
def iqrUpperOf (rows : List (List Value)) (i : ℕ) (k : ℚ) : ℚ :=
  quantile (ratsOf (colAt rows i)) (3/4) +
    k * (quantile (ratsOf (colAt rows i)) (3/4) -
      quantile (ratsOf (colAt rows i)) (1/4))

/-- The contract C5 asserts for `detect_and_handle_outliers` under
`method="iqr"`, `action="cap"`: no error, the schema and the row count
are unchanged, and in every target column present in the table each
numeric value is clamped into `[Q1 - k*IQR, Q3 + k*IQR]`, the bounds
computed per column over that column's non-missing values in the input;
missing (and non-numeric) cells are untouched. -/
def CapSpec (t : Table) (columns : List String) (threshold : ℚ) : Prop :=
  ∃ t' : Table,
    detect_and_handle_outliers t columns "iqr" threshold "cap" =
      Except.ok t' ∧
    t'.cols = t.cols ∧ t'.rows.length = t.rows.length ∧
    ∀ c ∈ columns, c ∈ names t →
      ∀ j : ℕ,
        cellAt (t'.rows.getD j []) ((names t).indexOf c) =
          capCell (iqrLowerOf t.rows ((names t).indexOf c) threshold)
            (iqrUpperOf t.rows ((names t).indexOf c) threshold)
            (cellAt (t.rows.getD j []) ((names t).indexOf c))

/-- Modelled from the claim (C2) in the spec's words: under
`action="remove"`, process the target columns in the caller's list order;
for each one drop the rows whose value in that column lies outside
`[Q1 - k*IQR, Q3 + k*IQR]`, where `Q1` and `Q3` are the quartiles of the
column's non-missing values in the table as already shrunk by the earlier
columns' removals. -/
def removeSpecRows (nms : List String) (threshold : ℚ)
    (columns : List String) (rows : List (List Value)) : List (List Value) :=
  columns.foldl (fun rs c =>
    rs.filter (fun r => match cellAt r (nms.indexOf c) with
      | .num q => decide (iqrLowerOf rs (nms.indexOf c) threshold ≤ q ∧
          q ≤ iqrUpperOf rs (nms.indexOf c) threshold)
      | _ => true)) rows

/-- The contract C2 asserts for `detect_and_handle_outliers` under
`method="iqr"`, `action="remove"`: the returned rows are exactly the
sequential per-column filter described by the claim (bounds recomputed
on the table as already shrunk by earlier columns' removals), the
surviving rows are a subsequence of the input rows in their original
order, and the row count never increases. -/
def RemoveSpec (t : Table) (columns : List String) (threshold : ℚ) : Prop :=
  detect_and_handle_outliers t columns "iqr" threshold "remove" =
    Except.ok { cols := t.cols,
                rows := removeSpecRows (names t) threshold columns t.rows } ∧
  (removeSpecRows (names t) threshold columns t.rows).Sublist t.rows ∧
  (removeSpecRows (names t) threshold columns t.rows).length ≤ t.rows.length

/-! ### Example tables for witnesses and counterexamples -/

/-- A one-column numeric table whose `Age` column contains the value 100. -/
def exAge100 : Table :=
  { cols := [("Age", ColKind.numeric)], rows := [[Value.num 100]] }

/-- A numeric column with an outlier and a missing value: quartiles of
`[1,1,1,1,100]` are `Q1 = Q3 = 1`, so `100` is an outlier, and the `NaN`
makes the removal mask unalignable. -/
def exRemoveNaN : Table :=
  { cols := [("x", ColKind.numeric)],
    rows := [[Value.num 1], [Value.num 1], [Value.num 1], [Value.num 1],
             [Value.num 100], [Value.null]] }

/-- A table with an entirely missing numeric column. -/
def exAllNullNum : Table :=
  { cols := [("x", ColKind.numeric)], rows := [[Value.null]] }

/-- Two distinct rows that the median imputation collapses into exact
duplicates: the `y`-median of the non-missing values is `2`. -/
def exRefill : Table :=
  { cols := [("x", ColKind.numeric), ("y", ColKind.numeric)],
    rows := [[Value.num 1, Value.null], [Value.num 1, Value.num 2]] }

/-- `exRefill` after one cleaning pass. -/
def exRefillOnce : Table :=
  { cols := [("x", ColKind.numeric), ("y", ColKind.numeric)],
    rows := [[Value.num 1, Value.num 2], [Value.num 1, Value.num 2]] }

/-- `exRefill` after two cleaning passes. -/
def exRefillTwice : Table :=
  { cols := [("x", ColKind.numeric), ("y", ColKind.numeric)],
    rows := [[Value.num 1, Value.num 2]] }

/-- An already-clean table: distinct rows, no missing values. -/
def exClean : Table :=
  { cols := [("x", ColKind.numeric), ("g", ColKind.categorical)],
    rows := [[Value.num 1, Value.str "a"], [Value.num 2, Value.str "b"]] }

/-- A numeric column `[1,1,1,1,1,1,1,100]` whose quartiles are `1`, so
`100` is capped down to `1`. -/
def exCap : Table :=
  { cols := [("x", ColKind.numeric)],
    rows := [[Value.num 1], [Value.num 1], [Value.num 1], [Value.num 1],
             [Value.num 1], [Value.num 1], [Value.num 1], [Value.num 100]] }

/-- A numeric column with an outlier and no missing values. -/
def exRemove : Table :=
  { cols := [("x", ColKind.numeric)],
    rows := [[Value.num 1], [Value.num 1], [Value.num 1], [Value.num 1],
             [Value.num 100]] }

/-- A one-column categorical table for the label-encoding witness. -/
def exEncode : Table :=
  { cols := [("c", ColKind.categorical)],
    rows := [[Value.str "b"], [Value.str "a"], [Value.str "b"]] }

/-- A table whose categorical column `g` is entirely missing. -/
def exAllNullCat : Table :=
  { cols := [("x", ColKind.numeric), ("g", ColKind.categorical)],
    rows := [[Value.num 1, Value.null], [Value.num 2, Value.null]] }

/-! ### General lemmas about the table primitives -/

theorem cellAt_nil (i : ℕ) : cellAt [] i = Value.null := by
  simp [cellAt]

theorem cellAt_set_ne {r : List Value} {i j : ℕ} (h : i ≠ j) (v : Value) :
    cellAt (r.set i v) j = cellAt r j := by
  simp [cellAt, List.getD_eq_getElem?_getD, List.getElem?_set_ne h]

theorem cellAt_set_self {r : List Value} {i : ℕ} (h : i < r.length) (v : Value) :
    cellAt (r.set i v) i = v := by
  simp [cellAt, List.getD_eq_getElem?_getD, List.getElem?_set_self h]

theorem cellAt_append_left {r r2 : List Value} {i : ℕ} (h : i < r.length) :
    cellAt (r ++ r2) i = cellAt r i := by
  simp [cellAt, List.getD_eq_getElem?_getD, List.getElem?_append_left h]

theorem mem_dedupRows {seen l : List (List Value)} {r : List Value} :
    r ∈ dedupRows seen l ↔ r ∈ l ∧ r ∉ seen := by
  induction l generalizing seen with
  | nil => simp [dedupRows]
  | cons a l ih =>
    by_cases ha : a ∈ seen
    · simp only [dedupRows, if_pos ha, ih, List.mem_cons]
      constructor
      · rintro ⟨h1, h2⟩; exact ⟨Or.inr h1, h2⟩
      · rintro ⟨h1 | h1, h2⟩
        · exact absurd (h1 ▸ ha) h2
        · exact ⟨h1, h2⟩
    · simp only [dedupRows, if_neg ha, List.mem_cons, ih, List.mem_cons]
      constructor
      · rintro (rfl | ⟨h1, h2⟩)
        · exact ⟨Or.inl rfl, ha⟩
        · exact ⟨Or.inr h1, fun hr => h2 (Or.inr hr)⟩
      · rintro ⟨rfl | h1, h2⟩
        · exact Or.inl rfl
        · by_cases hra : r = a
          · exact Or.inl hra
          · exact Or.inr ⟨h1, fun hr => (hr.elim hra h2 : False)⟩

theorem nodup_dedupRows (seen l : List (List Value)) :
    (dedupRows seen l).Nodup := by
  induction l generalizing seen with
  | nil => simp [dedupRows]
  | cons a l ih =>
    by_cases ha : a ∈ seen
    · simpa [dedupRows, if_pos ha] using ih seen
    · rw [dedupRows, if_neg ha]
      refine List.Nodup.cons ?_ (ih (a :: seen))
      intro hmem
      rcases mem_dedupRows.1 hmem with ⟨_, h2⟩
      exact h2 (List.mem_cons_self a seen)

theorem dedupRows_eq_self {seen l : List (List Value)}
    (h1 : l.Nodup) (h2 : ∀ r ∈ l, r ∉ seen) : dedupRows seen l = l := by
  induction l generalizing seen with
  | nil => rfl
  | cons a l ih =>
    have ha : a ∉ seen := h2 a (List.mem_cons_self a l)
    rw [dedupRows, if_neg ha, ih (List.Nodup.of_cons h1)]
    intro r hr
    simp only [List.mem_cons]
    rintro (rfl | hrs)
    · exact (List.nodup_cons.1 h1).1 hr
    · exact h2 r (List.mem_cons_of_mem a hr) hrs

theorem fillColRows_of_no_null {rows : List (List Value)} {i : ℕ} {m : Value}
    (h : ∀ r ∈ rows, cellAt r i ≠ Value.null) : fillColRows rows i m = rows := by
  unfold fillColRows
  conv_rhs => rw [← List.map_id rows]
  exact List.map_congr_left (fun r hr => by simp [h r hr])

theorem colAt_fillColRows_ne {rows : List (List Value)} {i j : ℕ} (h : i ≠ j)
    (m : Value) : colAt (fillColRows rows i m) j = colAt rows j := by
  unfold colAt fillColRows
  rw [List.map_map]
  exact List.map_congr_left (fun r _ => by
    by_cases hc : cellAt r i = Value.null <;>
      simp [Function.comp, hc, cellAt_set_ne h])

theorem length_fillColRows (rows : List (List Value)) (i : ℕ) (m : Value) :
    (fillColRows rows i m).length = rows.length := by
  simp [fillColRows]

theorem numericPass_of_no_null {idxs : List ℕ} {rows : List (List Value)}
    (h : ∀ r ∈ rows, ∀ i ∈ idxs, cellAt r i ≠ Value.null) :
    numericPass idxs rows = rows := by
  induction idxs with
  | nil => rfl
  | cons a idxs ih =>
    have hstep : ∀ rs, rs = rows →
        (match median (ratsOf (colAt rs a)) with
         | none => rs
         | some m => fillColRows rs a (.num m)) = rows := by
      rintro rs rfl
      cases median (ratsOf (colAt rs a)) with
      | none => rfl
      | some m =>
        exact fillColRows_of_no_null
          (fun r hr => h r hr a (List.mem_cons_self a idxs))
    unfold numericPass
    rw [List.foldl_cons, hstep rows rfl]
    exact ih (fun r hr i hi => h r hr i (List.mem_cons_of_mem a hi))

theorem categoricalFold_of_no_null {idxs : List ℕ} {rows : List (List Value)}
    (h : ∀ r ∈ rows, ∀ i ∈ idxs, cellAt r i ≠ Value.null) :
    idxs.foldlM categoricalStep rows = Except.ok rows := by
  induction idxs with
  | nil => rfl
  | cons a idxs ih =>
    have hnn : Value.null ∉ colAt rows a := by
      intro hmem
      rcases List.mem_map.1 hmem with ⟨r, hr, hcell⟩
      exact h r hr a (List.mem_cons_self a idxs) hcell
    rw [List.foldlM_cons, categoricalStep, if_neg hnn]
    exact ih (fun r hr i hi => h r hr i (List.mem_cons_of_mem a hi))

/-! ### C9: error propagation in `load_data` -/

/-- C9: for a path that does not exist, `load_data` fails with the
re-raised `NotFound` error; for any other load/parse failure it fails
with the re-raised wrapped load error; in neither case does it return a
table — a returned table can only come from a successful read. -/
theorem c9_load_error_propagation (fs : String → ReadResult) (path : String) :
    (fs path = ReadResult.notFound →
      load_data fs path = Except.error LoadError.notFound) ∧
    (fs path = ReadResult.parseFailure →
      load_data fs path = Except.error LoadError.loadError) ∧
    (∀ t : Table, load_data fs path = Except.ok t → fs path = ReadResult.table t) := by
  refine ⟨fun h => by simp [load_data, h], fun h => by simp [load_data, h],
    fun t h => ?_⟩
  cases hfs : fs path with
  | notFound => simp [load_data, hfs] at h
  | parseFailure => simp [load_data, hfs] at h
  | table t2 =>
    simp only [load_data, hfs, Except.ok.injEq] at h
    rw [h]

/-- Witness for C9 at a concrete filesystem in which every path is
missing. -/
theorem c9_load_error_propagation_witness :
    ((fun _ => ReadResult.notFound) "data.csv" = ReadResult.notFound) ∧
    load_data (fun _ => ReadResult.notFound) "data.csv" =
      Except.error LoadError.notFound :=
  ⟨rfl, (c9_load_error_propagation (fun _ => ReadResult.notFound) "data.csv").1 rfl⟩

/-! ### C6: cleaning already-clean data -/

/-- C6 counterexample: `clean_data` composed with itself does **not**
equal `clean_data` on all inputs.  On `exRefill` the median imputation
turns the two distinct rows into exact duplicates, so a second cleaning
pass removes a row the first pass kept. -/
theorem c6_compose_counterexample :
    clean_data exRefill = Except.ok exRefillOnce ∧
    clean_data exRefillOnce = Except.ok exRefillTwice ∧
    exRefillTwice ≠ exRefillOnce :=
  ⟨by rfl, by rfl, by decide⟩

/-- C6 (amended): on a table that is already clean — no duplicate rows
and no missing value in any schema column — `clean_data` returns its
input unchanged: the fixed point is reached in one pass (so running the
cleaner twice on already-clean data yields an identical table).  The
unrestricted equation `clean_data ∘ clean_data = clean_data` is false
(`c6_compose_counterexample`). -/
theorem c6_clean_fixed_point (t : Table) (hnd : t.rows.Nodup)
    (hnn : ∀ r ∈ t.rows, ∀ i < t.cols.length, cellAt r i ≠ Value.null) :
    clean_data t = Except.ok t := by
  have hded : dedupRows [] t.rows = t.rows :=
    dedupRows_eq_self hnd (fun r _ => List.not_mem_nil r)
  have hnum : numericPass (numericIdxs t) t.rows = t.rows :=
    numericPass_of_no_null (fun r hr i hi =>
      hnn r hr i (List.mem_range.1 (List.mem_filter.1 hi).1))
  have hcat : (categoricalIdxs t).foldlM categoricalStep t.rows =
      Except.ok t.rows :=
    categoricalFold_of_no_null (fun r hr i hi =>
      hnn r hr i (List.mem_range.1 (List.mem_filter.1 hi).1))
  have hdef : clean_data t = ((categoricalIdxs t).foldlM categoricalStep
      (numericPass (numericIdxs t) (dedupRows [] t.rows))).map
      (fun rows => { t with rows := rows }) := rfl
  rw [hdef, hded, hnum, hcat]
  rfl

/-- Witness for C6 at a concrete clean table. -/
theorem c6_clean_fixed_point_witness :
    exClean.rows.Nodup ∧
    (∀ r ∈ exClean.rows, ∀ i < exClean.cols.length, cellAt r i ≠ Value.null) ∧
    clean_data exClean = Except.ok exClean :=
  ⟨by decide, by decide, c6_clean_fixed_point exClean (by decide) (by decide)⟩

/-! ### Lemmas about rows, modes and the cleaning passes -/

theorem getD_map_row (f : List Value → List Value) (rows : List (List Value))
    {j : ℕ} (hj : j < rows.length) :
    (rows.map f).getD j [] = f (rows.getD j []) := by
  simp [List.getD_eq_getElem?_getD, List.getElem?_map,
    List.getElem?_eq_getElem hj]

theorem getD_mem {rows : List (List Value)} {j : ℕ} (hj : j < rows.length) :
    rows.getD j [] ∈ rows := by
  have h : rows.getD j [] = rows[j] := by
    simp [List.getD_eq_getElem?_getD, List.getElem?_eq_getElem hj]
  rw [h]
  exact List.getElem_mem hj

theorem mem_colAt {rows : List (List Value)} {i : ℕ} {v : Value} :
    v ∈ colAt rows i ↔ ∃ r ∈ rows, cellAt r i = v := by
  simp [colAt, List.mem_map, eq_comm]

theorem nonNullCells_eq_nil {vs : List Value} :
    nonNullCells vs = [] ↔ ∀ v ∈ vs, v = Value.null := by
  simp [nonNullCells]

theorem modeVal_eq_none {vs : List Value} : modeVal vs = none ↔ vs = [] := by
  cases vs <;> simp [modeVal]

theorem foldl_vle_min_mem (l : List Value) (a : Value) :
    l.foldl (fun x y => if vle y x then y else x) a = a ∨
    l.foldl (fun x y => if vle y x then y else x) a ∈ l := by
  induction l generalizing a with
  | nil => exact Or.inl rfl
  | cons b l ih =>
    simp only [List.foldl_cons]
    rcases ih (if vle b a then b else a) with h | h
    · rw [h]
      by_cases hv : vle b a
      · simp [hv]
      · simp [hv]
    · exact Or.inr (List.mem_cons_of_mem b h)

theorem modeVal_mem {vs : List Value} {m : Value} (h : modeVal vs = some m) :
    m ∈ vs := by
  cases vs with
  | nil => cases h
  | cons v vs =>
    simp only [modeVal, Option.some.injEq] at h
    set all := v :: vs with hall
    set maxCount := (all.map (fun w => all.count w)).foldl Nat.max 0 with hmax
    set cands := all.filter (fun w => all.count w == maxCount) with hcands
    have hsub : ∀ x ∈ cands, x ∈ all := fun x hx => (List.mem_filter.1 hx).1
    rcases foldl_vle_min_mem cands (cands.headD v) with he | he
    · rw [he] at h
      cases hc : cands with
      | nil => rw [hc] at h; simp at h; exact h ▸ List.mem_cons_self v vs
      | cons c cs =>
        rw [hc] at h; simp at h
        exact h ▸ hsub c (hc ▸ List.mem_cons_self c cs)
    · exact h ▸ hsub _ he

theorem length_numericPass (idxs : List ℕ) (rows : List (List Value)) :
    (numericPass idxs rows).length = rows.length := by
  induction idxs generalizing rows with
  | nil => rfl
  | cons a idxs ih =>
    unfold numericPass
    rw [List.foldl_cons]
    cases median (ratsOf (colAt rows a)) with
    | none => exact ih rows
    | some m =>
      simpa [length_fillColRows] using ih (fillColRows rows a (.num m))

theorem rowLength_fillColRows {rows : List (List Value)} {i : ℕ} {m : Value}
    {L : ℕ} (h : ∀ r ∈ rows, r.length = L) :
    ∀ r ∈ fillColRows rows i m, r.length = L := by
  intro r hr
  rcases List.mem_map.1 hr with ⟨r0, hr0, rfl⟩
  by_cases hc : cellAt r0 i = Value.null <;> simp [hc, h r0 hr0]

theorem rowLength_numericPass {idxs : List ℕ} {rows : List (List Value)}
    {L : ℕ} (h : ∀ r ∈ rows, r.length = L) :
    ∀ r ∈ numericPass idxs rows, r.length = L := by
  induction idxs generalizing rows with
  | nil => exact h
  | cons a idxs ih =>
    unfold numericPass
    rw [List.foldl_cons]
    cases median (ratsOf (colAt rows a)) with
    | none => exact ih h
    | some m => exact ih (rowLength_fillColRows h)

theorem numericPass_colAt_ne {idxs : List ℕ} {k : ℕ} (hk : k ∉ idxs)
    (rows : List (List Value)) :
    colAt (numericPass idxs rows) k = colAt rows k := by
  induction idxs generalizing rows with
  | nil => rfl
  | cons a idxs ih =>
    unfold numericPass
    rw [List.foldl_cons]
    have hka : k ≠ a := fun h => hk (h ▸ List.mem_cons_self a idxs)
    have hk' : k ∉ idxs := fun h => hk (List.mem_cons_of_mem a h)
    cases median (ratsOf (colAt rows a)) with
    | none => exact ih hk' rows
    | some m =>
      exact (ih hk' (fillColRows rows a (.num m))).trans
        (colAt_fillColRows_ne (fun h => hka h.symm) (.num m))

theorem categoricalFold_error_iff {idxs : List ℕ} (hnd : idxs.Nodup)
    (rows : List (List Value)) :
    (idxs.foldlM categoricalStep rows = Except.error CleanError.emptyColumn) ↔
    (∃ i ∈ idxs, Value.null ∈ colAt rows i ∧
      nonNullCells (colAt rows i) = []) := by
  induction idxs generalizing rows with
  | nil =>
    simp only [List.foldlM_nil]
    constructor
    · intro h; exact Except.noConfusion h
    · rintro ⟨i, hi, _⟩; exact absurd hi (List.not_mem_nil i)
  | cons a idxs ih =>
    rw [List.foldlM_cons]
    have hand : a ∉ idxs := (List.nodup_cons.1 hnd).1
    have hnd' : idxs.Nodup := (List.nodup_cons.1 hnd).2
    by_cases hna : Value.null ∈ colAt rows a
    · by_cases hea : nonNullCells (colAt rows a) = []
      · have hstep : categoricalStep rows a = Except.error CleanError.emptyColumn := by
          rw [categoricalStep, if_pos hna, modeVal_eq_none.2 hea]
        rw [hstep]
        constructor
        · intro _; exact ⟨a, List.mem_cons_self a idxs, hna, hea⟩
        · intro _; rfl
      · rcases Option.ne_none_iff_exists'.1
          (fun h => hea (modeVal_eq_none.1 h)) with ⟨m, hm⟩
        have hstep : categoricalStep rows a =
            Except.ok (fillColRows rows a m) := by
          rw [categoricalStep, if_pos hna, hm]
        rw [hstep]
        have hbind : (Except.ok (fillColRows rows a m) >>=
            fun b => idxs.foldlM categoricalStep b) =
            idxs.foldlM categoricalStep (fillColRows rows a m) := rfl
        rw [hbind, ih hnd' (fillColRows rows a m)]
        constructor
        · rintro ⟨i, hi, h1, h2⟩
          have hia : i ≠ a := fun h => hand (h ▸ hi)
          rw [colAt_fillColRows_ne (fun h => hia h.symm)] at h1 h2
          exact ⟨i, List.mem_cons_of_mem a hi, h1, h2⟩
        · rintro ⟨i, hi, h1, h2⟩
          rcases List.mem_cons.1 hi with rfl | hi'
          · exact absurd h2 hea
          · have hia : i ≠ a := fun h => hand (h ▸ hi')
            refine ⟨i, hi', ?_, ?_⟩ <;>
              rw [colAt_fillColRows_ne (fun h => hia h.symm)] <;>
              assumption
    · have hstep : categoricalStep rows a = Except.ok rows := by
        rw [categoricalStep, if_neg hna]
      rw [hstep]
      have hbind : (Except.ok rows >>=
          fun b => idxs.foldlM categoricalStep b) =
          idxs.foldlM categoricalStep rows := rfl
      rw [hbind, ih hnd' rows]
      constructor
      · rintro ⟨i, hi, h1, h2⟩
        exact ⟨i, List.mem_cons_of_mem a hi, h1, h2⟩
      · rintro ⟨i, hi, h1, h2⟩
        rcases List.mem_cons.1 hi with rfl | hi'
        · exact absurd h1 hna
        · exact ⟨i, hi', h1, h2⟩

theorem mem_numericIdxs {t : Table} {i : ℕ} :
    i ∈ numericIdxs t ↔ i < t.cols.length ∧ kindAt t i = ColKind.numeric := by
  simp [numericIdxs, List.mem_filter, List.mem_range]

theorem mem_categoricalIdxs {t : Table} {i : ℕ} :
    i ∈ categoricalIdxs t ↔
      i < t.cols.length ∧ kindAt t i = ColKind.categorical := by
  simp [categoricalIdxs, List.mem_filter, List.mem_range]

theorem categorical_not_numeric {t : Table} {i : ℕ}
    (h : kindAt t i = ColKind.categorical) : i ∉ numericIdxs t := by
  intro hn
  rw [(mem_numericIdxs.1 hn).2] at h
  cases h

theorem nodup_categoricalIdxs (t : Table) : (categoricalIdxs t).Nodup :=
  (List.nodup_range _).filter _

theorem nodup_numericIdxs (t : Table) : (numericIdxs t).Nodup :=
  (List.nodup_range _).filter _

theorem mem_dedupRows_nil {l : List (List Value)} {r : List Value} :
    r ∈ dedupRows [] l ↔ r ∈ l := by
  rw [mem_dedupRows]
  simp

/-! ### C4: all-missing categorical columns make `clean_data` fail -/

/-- C4: `clean_data` fails with the empty-column error exactly on the
tables in which some categorical column is entirely missing — the column
has a missing value and every one of its values is missing (this is the
`isna().any()` guard followed by `mode()[0]` on an empty mode series);
on no other input does a mode computation raise.  Numeric columns never
contribute: an all-missing numeric column only makes the median fill a
no-op. -/
theorem c4_all_missing_categorical (t : Table) :
    clean_data t = Except.error CleanError.emptyColumn ↔
    ∃ i < t.cols.length, kindAt t i = ColKind.categorical ∧
      Value.null ∈ colAt t.rows i ∧ ∀ r ∈ t.rows, cellAt r i = Value.null := by
  have hdef : clean_data t = ((categoricalIdxs t).foldlM categoricalStep
      (numericPass (numericIdxs t) (dedupRows [] t.rows))).map
      (fun rows => { t with rows := rows }) := rfl
  have hmap : ∀ res : Except CleanError (List (List Value)),
      (res.map (fun rows => ({ t with rows := rows } : Table)) =
        Except.error CleanError.emptyColumn) ↔
      res = Except.error CleanError.emptyColumn := by
    intro res; cases res <;> simp [Except.map]
  rw [hdef, hmap _,
    categoricalFold_error_iff (nodup_categoricalIdxs t) _]
  constructor
  · rintro ⟨i, hi, h1, h2⟩
    have hcat := mem_categoricalIdxs.1 hi
    have hni : i ∉ numericIdxs t := categorical_not_numeric hcat.2
    rw [numericPass_colAt_ne hni] at h1 h2
    refine ⟨i, hcat.1, hcat.2, ?_, ?_⟩
    · rcases mem_colAt.1 h1 with ⟨r, hr, hc⟩
      exact mem_colAt.2 ⟨r, mem_dedupRows_nil.1 hr, hc⟩
    · intro r hr
      exact nonNullCells_eq_nil.1 h2 _
        (mem_colAt.2 ⟨r, mem_dedupRows_nil.2 hr, rfl⟩)
  · rintro ⟨i, hlen, hkind, h1, h2⟩
    have hi : i ∈ categoricalIdxs t := mem_categoricalIdxs.2 ⟨hlen, hkind⟩
    have hni : i ∉ numericIdxs t := categorical_not_numeric hkind
    refine ⟨i, hi, ?_, ?_⟩
    · rw [numericPass_colAt_ne hni]
      rcases mem_colAt.1 h1 with ⟨r, hr, hc⟩
      exact mem_colAt.2 ⟨r, mem_dedupRows_nil.2 hr, hc⟩
    · rw [numericPass_colAt_ne hni]
      refine nonNullCells_eq_nil.2 (fun v hv => ?_)
      rcases mem_colAt.1 hv with ⟨r, hr, rfl⟩
      exact h2 r (mem_dedupRows_nil.1 hr)

theorem fillColRows_cell {rows : List (List Value)} {i : ℕ} {m : Value}
    {j : ℕ} (hj : j < rows.length) (k : ℕ)
    (hlen : i < (rows.getD j []).length) :
    cellAt ((fillColRows rows i m).getD j []) k =
      if k = i ∧ cellAt (rows.getD j []) i = Value.null then m
      else cellAt (rows.getD j []) k := by
  rw [fillColRows, getD_map_row _ _ hj]
  by_cases hc : cellAt (rows.getD j []) i = Value.null
  · rw [if_pos hc]
    by_cases hk : k = i
    · subst hk
      rw [if_pos ⟨rfl, hc⟩, cellAt_set_self hlen]
    · rw [if_neg (fun h => hk h.1), cellAt_set_ne (fun h => hk h.symm)]
  · rw [if_neg hc, if_neg (fun h => hc h.2)]

/-- Pointwise description of the numeric imputation pass: a cell in a
processed column is replaced by that column's median exactly when it was
missing and the median exists; every other cell is untouched. -/
theorem numericPass_cell {idxs : List ℕ} (hnd : idxs.Nodup)
    {rows : List (List Value)}
    (hlen : ∀ r ∈ rows, ∀ k ∈ idxs, k < r.length)
    {j : ℕ} (hj : j < rows.length) (i : ℕ) :
    cellAt ((numericPass idxs rows).getD j []) i =
      if i ∈ idxs ∧ cellAt (rows.getD j []) i = Value.null then
        match median (ratsOf (colAt rows i)) with
        | some m => Value.num m
        | none => Value.null
      else cellAt (rows.getD j []) i := by
  induction idxs generalizing rows with
  | nil => simp [numericPass]
  | cons a idxs ih =>
    have hstep : numericPass (a :: idxs) rows = numericPass idxs
        (match median (ratsOf (colAt rows a)) with
         | none => rows
         | some m => fillColRows rows a (.num m)) := rfl
    rw [hstep]
    have hand : a ∉ idxs := (List.nodup_cons.1 hnd).1
    have hnd' : idxs.Nodup := (List.nodup_cons.1 hnd).2
    have hlen' : ∀ r ∈ rows, ∀ k ∈ idxs, k < r.length :=
      fun r hr k hk => hlen r hr k (List.mem_cons_of_mem a hk)
    cases hmed : median (ratsOf (colAt rows a)) with
    | none =>
      simp only [hmed]
      rw [ih hnd' hlen' hj]
      by_cases hia : i = a
      · subst hia
        rw [if_neg (fun h => hand h.1)]
        by_cases hc : cellAt (rows.getD j []) i = Value.null
        · rw [if_pos ⟨List.mem_cons_self i idxs, hc⟩, hmed, hc]
        · rw [if_neg (fun h => hc h.2)]
      · by_cases hii : i ∈ idxs ∧ cellAt (rows.getD j []) i = Value.null
        · rw [if_pos hii, if_pos ⟨List.mem_cons_of_mem a hii.1, hii.2⟩]
        · rw [if_neg hii,
            if_neg (fun h => hii ⟨(List.mem_cons.1 h.1).resolve_left hia, h.2⟩)]
    | some m =>
      simp only [hmed]
      have hj1 : j < (fillColRows rows a (.num m)).length := by
        rw [length_fillColRows]; exact hj
      have hlen1 : ∀ r ∈ fillColRows rows a (.num m), ∀ k ∈ idxs, k < r.length :=
        fun r hr k hk => by
          rcases List.mem_map.1 hr with ⟨r0, hr0, rfl⟩
          by_cases hc : cellAt r0 a = Value.null <;>
            simp [hc, hlen r0 hr0 k (List.mem_cons_of_mem a hk)]
      rw [ih hnd' hlen1 hj1]
      have hacell : a < (rows.getD j []).length :=
        hlen _ (getD_mem hj) a (List.mem_cons_self a idxs)
      by_cases hia : i = a
      · subst hia
        rw [if_neg (fun h => hand h.1),
          fillColRows_cell hj i hacell]
        by_cases hc : cellAt (rows.getD j []) i = Value.null
        · rw [if_pos ⟨rfl, hc⟩, if_pos ⟨List.mem_cons_self i idxs, hc⟩, hmed]
        · rw [if_neg (fun h => hc h.2), if_neg (fun h => hc h.2)]
      · have hcol : colAt (fillColRows rows a (.num m)) i = colAt rows i :=
          colAt_fillColRows_ne (fun h => hia h.symm) _
        have hcell : cellAt ((fillColRows rows a (.num m)).getD j []) i =
            cellAt (rows.getD j []) i := by
          rw [fillColRows_cell hj i hacell, if_neg (fun h => hia h.1)]
        rw [hcol, hcell]
        by_cases hii : i ∈ idxs ∧ cellAt (rows.getD j []) i = Value.null
        · rw [if_pos hii, if_pos ⟨List.mem_cons_of_mem a hii.1, hii.2⟩]
        · rw [if_neg hii,
            if_neg (fun h => hii ⟨(List.mem_cons.1 h.1).resolve_left hia, h.2⟩)]

/-- Pointwise description of the categorical imputation loop on a
successful run: a cell in a processed column is replaced by that column's
mode exactly when it was missing; every other cell is untouched. -/
theorem categoricalFold_cell {idxs : List ℕ} (hnd : idxs.Nodup)
    {rows rows' : List (List Value)}
    (hlen : ∀ r ∈ rows, ∀ k ∈ idxs, k < r.length)
    (hok : idxs.foldlM categoricalStep rows = Except.ok rows') :
    rows'.length = rows.length ∧
    ∀ j, j < rows.length → ∀ i,
      cellAt (rows'.getD j []) i =
        if i ∈ idxs ∧ cellAt (rows.getD j []) i = Value.null then
          (modeVal (nonNullCells (colAt rows i))).getD Value.null
        else cellAt (rows.getD j []) i := by
  induction idxs generalizing rows with
  | nil =>
    have h0 : (Except.ok rows : Except CleanError (List (List Value))) =
        Except.ok rows' := hok
    simp only [Except.ok.injEq] at h0
    subst h0
    exact ⟨rfl, fun j hj i => by simp⟩
  | cons a idxs ih =>
    rw [List.foldlM_cons] at hok
    have hand : a ∉ idxs := (List.nodup_cons.1 hnd).1
    have hnd' : idxs.Nodup := (List.nodup_cons.1 hnd).2
    by_cases hna : Value.null ∈ colAt rows a
    · cases hmode : modeVal (nonNullCells (colAt rows a)) with
      | none =>
        have hstep : categoricalStep rows a =
            Except.error CleanError.emptyColumn := by
          rw [categoricalStep, if_pos hna, hmode]
        rw [hstep] at hok
        exact Except.noConfusion hok
      | some m =>
        have hstep : categoricalStep rows a =
            Except.ok (fillColRows rows a m) := by
          rw [categoricalStep, if_pos hna, hmode]
        rw [hstep] at hok
        have hok' : idxs.foldlM categoricalStep (fillColRows rows a m) =
            Except.ok rows' := hok
        have hlen1 : ∀ r ∈ fillColRows rows a m, ∀ k ∈ idxs, k < r.length :=
          fun r hr k hk => by
            rcases List.mem_map.1 hr with ⟨r0, hr0, rfl⟩
            by_cases hc : cellAt r0 a = Value.null <;>
              simp [hc, hlen r0 hr0 k (List.mem_cons_of_mem a hk)]
        rcases ih hnd' hlen1 hok' with ⟨hL, hcells⟩
        rw [length_fillColRows] at hL
        refine ⟨hL, fun j hj i => ?_⟩
        have hj1 : j < (fillColRows rows a m).length := by
          rw [length_fillColRows]; exact hj
        have hacell : a < (rows.getD j []).length :=
          hlen _ (getD_mem hj) a (List.mem_cons_self a idxs)
        rw [hcells j hj1 i]
        by_cases hia : i = a
        · subst hia
          rw [if_neg (fun h => hand h.1), fillColRows_cell hj i hacell]
          by_cases hc : cellAt (rows.getD j []) i = Value.null
          · rw [if_pos ⟨rfl, hc⟩, if_pos ⟨List.mem_cons_self i idxs, hc⟩,
              hmode]
            rfl
          · rw [if_neg (fun h => hc h.2), if_neg (fun h => hc h.2)]
        · have hcol : colAt (fillColRows rows a m) i = colAt rows i :=
            colAt_fillColRows_ne (fun h => hia h.symm) _
          have hcell : cellAt ((fillColRows rows a m).getD j []) i =
              cellAt (rows.getD j []) i := by
            rw [fillColRows_cell hj i hacell, if_neg (fun h => hia h.1)]
          rw [hcol, hcell]
          by_cases hii : i ∈ idxs ∧ cellAt (rows.getD j []) i = Value.null
          · rw [if_pos hii, if_pos ⟨List.mem_cons_of_mem a hii.1, hii.2⟩]
          · rw [if_neg hii,
              if_neg (fun h => hii ⟨(List.mem_cons.1 h.1).resolve_left hia, h.2⟩)]
    · have hstep : categoricalStep rows a = Except.ok rows := by
        rw [categoricalStep, if_neg hna]
      rw [hstep] at hok
      have hok' : idxs.foldlM categoricalStep rows = Except.ok rows' := hok
      have hlen' : ∀ r ∈ rows, ∀ k ∈ idxs, k < r.length :=
        fun r hr k hk => hlen r hr k (List.mem_cons_of_mem a hk)
      rcases ih hnd' hlen' hok' with ⟨hL, hcells⟩
      refine ⟨hL, fun j hj i => ?_⟩
      rw [hcells j hj i]
      by_cases hia : i = a
      · subst hia
        by_cases hc : cellAt (rows.getD j []) i = Value.null
        · exact absurd (mem_colAt.2 ⟨_, getD_mem hj, hc⟩) hna
        · rw [if_neg (fun h => hc h.2), if_neg (fun h => hc h.2)]
      · by_cases hii : i ∈ idxs ∧ cellAt (rows.getD j []) i = Value.null
        · rw [if_pos hii, if_pos ⟨List.mem_cons_of_mem a hii.1, hii.2⟩]
        · rw [if_neg hii,
            if_neg (fun h => hii ⟨(List.mem_cons.1 h.1).resolve_left hia, h.2⟩)]

theorem median_eq_none {xs : List ℚ} : median xs = none ↔ xs = [] := by
  by_cases h : xs = [] <;> simp [median, h]

theorem mem_ratsOf {vs : List Value} {q : ℚ} :
    q ∈ ratsOf vs ↔ Value.num q ∈ vs := by
  rw [ratsOf, List.mem_filterMap]
  constructor
  · rintro ⟨v, hv, hm⟩
    cases v with
    | num a =>
      have ha : a = q := by simpa using hm
      exact ha ▸ hv
    | str s => exact Option.noConfusion hm
    | null => exact Option.noConfusion hm
  · intro h
    exact ⟨Value.num q, h, rfl⟩

theorem mem_nonNullCells {vs : List Value} {v : Value} :
    v ∈ nonNullCells vs ↔ v ∈ vs ∧ v ≠ Value.null := by
  simp [nonNullCells]

theorem kindAt_mem_cases {t : Table} {i : ℕ} (h : i < t.cols.length) :
    i ∈ numericIdxs t ∨ i ∈ categoricalIdxs t := by
  cases hk : kindAt t i with
  | numeric => exact Or.inl (mem_numericIdxs.2 ⟨h, hk⟩)
  | categorical => exact Or.inr (mem_categoricalIdxs.2 ⟨h, hk⟩)

/-! ### C3: the `clean_data` contract -/

/-- C3 counterexample: on a table whose (numeric) column is entirely
missing, `clean_data` returns a table that still contains a missing
value — the column's median is `NaN` and filling with `NaN` is a no-op,
so the claim that no missing value remains "including when a numeric
column is entirely missing" fails. -/
theorem c3_counterexample :
    clean_data exAllNullNum = Except.ok exAllNullNum ∧
    Value.null ∈ colAt exAllNullNum.rows 0 :=
  ⟨by rfl, by decide⟩

/-- C3 (amended): for every well-formed table whose numeric columns hold
numbers or missing values and in which no categorical column with a
missing value is entirely missing, `clean_data` returns a table with
exact-duplicate rows removed (row-wise full equality, first occurrences
kept) and every missing value imputed — numeric columns by their median
over non-missing values, categorical columns by their mode — except that
a numeric column that is entirely missing stays entirely missing. -/
theorem c3_clean_contract (t : Table) (hwf : wf t)
    (htyped : ∀ i ∈ numericIdxs t, ∀ r ∈ t.rows, numOrNull (cellAt r i) = true)
    (hcat : ∀ i ∈ categoricalIdxs t, Value.null ∈ colAt t.rows i →
      nonNullCells (colAt t.rows i) ≠ []) :
    CleanSpec t := by
  have hdef : clean_data t = ((categoricalIdxs t).foldlM categoricalStep
      (numericPass (numericIdxs t) (dedupRows [] t.rows))).map
      (fun rows => { t with rows := rows }) := rfl
  have hmemr : ∀ r, r ∈ dedupRows [] t.rows ↔ r ∈ t.rows :=
    fun r => mem_dedupRows_nil
  -- row lengths
  have hlen0 : ∀ r ∈ dedupRows [] t.rows, r.length = t.cols.length :=
    fun r hr => hwf r ((hmemr r).1 hr)
  have hlenN : ∀ r ∈ dedupRows [] t.rows, ∀ k ∈ numericIdxs t, k < r.length :=
    fun r hr k hk => (hlen0 r hr) ▸ (mem_numericIdxs.1 hk).1
  have hlen1 : ∀ r ∈ numericPass (numericIdxs t) (dedupRows [] t.rows),
      r.length = t.cols.length := rowLength_numericPass hlen0
  have hlenC : ∀ r ∈ numericPass (numericIdxs t) (dedupRows [] t.rows),
      ∀ k ∈ categoricalIdxs t, k < r.length :=
    fun r hr k hk => (hlen1 r hr) ▸ (mem_categoricalIdxs.1 hk).1
  -- column transfers between the original rows and the deduplicated rows
  have hnullcol : ∀ i, (Value.null ∈ colAt (dedupRows [] t.rows) i ↔
      Value.null ∈ colAt t.rows i) := by
    intro i
    constructor
    · intro h
      rcases mem_colAt.1 h with ⟨r, hr, hc⟩
      exact mem_colAt.2 ⟨r, (hmemr r).1 hr, hc⟩
    · intro h
      rcases mem_colAt.1 h with ⟨r, hr, hc⟩
      exact mem_colAt.2 ⟨r, (hmemr r).2 hr, hc⟩
  have hallcol : ∀ i, ((∀ v ∈ colAt (dedupRows [] t.rows) i, v = Value.null) ↔
      (∀ v ∈ colAt t.rows i, v = Value.null)) := by
    intro i
    constructor
    · intro h v hv
      rcases mem_colAt.1 hv with ⟨r, hr, hc⟩
      exact h v (mem_colAt.2 ⟨r, (hmemr r).2 hr, hc⟩)
    · intro h v hv
      rcases mem_colAt.1 hv with ⟨r, hr, hc⟩
      exact h v (mem_colAt.2 ⟨r, (hmemr r).1 hr, hc⟩)
  -- the categorical fold cannot fail under `hcat`
  cases hres : (categoricalIdxs t).foldlM categoricalStep
      (numericPass (numericIdxs t) (dedupRows [] t.rows)) with
  | error e =>
    cases e
    exfalso
    rcases (categoricalFold_error_iff (nodup_categoricalIdxs t) _).1 hres
      with ⟨i, hi, h1, h2⟩
    have hni : i ∉ numericIdxs t :=
      categorical_not_numeric (mem_categoricalIdxs.1 hi).2
    rw [numericPass_colAt_ne hni] at h1 h2
    have h1' : Value.null ∈ colAt t.rows i := (hnullcol i).1 h1
    have h2' : nonNullCells (colAt t.rows i) = [] :=
      nonNullCells_eq_nil.2 ((hallcol i).1 (nonNullCells_eq_nil.1 h2))
    exact hcat i hi h1' h2'
  | ok rows2 =>
    rcases categoricalFold_cell (nodup_categoricalIdxs t) hlenC hres
      with ⟨hL2, hcells2⟩
    have hL1 : (numericPass (numericIdxs t) (dedupRows [] t.rows)).length =
        (dedupRows [] t.rows).length := length_numericPass _ _
    refine ⟨{ t with rows := rows2 }, ?_, rfl, nodup_dedupRows [] t.rows,
      hmemr, ?_, ?_, ?_, ?_⟩
    · rw [hdef, hres]; rfl
    · exact hL2.trans hL1
    · -- already-present cells are untouched
      intro j hj i hne
      have hj0 : j < (dedupRows [] t.rows).length := by
        rw [← hL1, ← hL2]; exact hj
      have hj1 : j < (numericPass (numericIdxs t) (dedupRows [] t.rows)).length := by
        rw [hL1]; exact hj0
      have hc1 : cellAt ((numericPass (numericIdxs t)
          (dedupRows [] t.rows)).getD j []) i =
          cellAt ((dedupRows [] t.rows).getD j []) i := by
        rw [numericPass_cell (nodup_numericIdxs t) hlenN hj0 i,
          if_neg (fun h => hne h.2)]
      have hc2 : cellAt (rows2.getD j []) i =
          cellAt ((numericPass (numericIdxs t)
            (dedupRows [] t.rows)).getD j []) i := by
        rw [hcells2 j hj1 i, if_neg (fun h => hne (hc1 ▸ h.2))]
      rw [hc2, hc1]
    · -- missing cells are filled by the type-dependent imputation policy
      intro j hj i hi hnull0
      have hj0 : j < (dedupRows [] t.rows).length := by
        rw [← hL1, ← hL2]; exact hj
      have hj1 : j < (numericPass (numericIdxs t) (dedupRows [] t.rows)).length := by
        rw [hL1]; exact hj0
      rcases kindAt_mem_cases hi with hin | hic
      · -- numeric column: the cell becomes the column's median (if defined)
        refine Or.inl ⟨(mem_numericIdxs.1 hin).2, ?_⟩
        have hnc : i ∉ categoricalIdxs t := by
          intro h
          have h1 : kindAt t i = ColKind.categorical := (mem_categoricalIdxs.1 h).2
          rw [(mem_numericIdxs.1 hin).2] at h1
          exact ColKind.noConfusion h1
        have hcell1 : cellAt ((numericPass (numericIdxs t)
            (dedupRows [] t.rows)).getD j []) i =
            (match median (ratsOf (colAt (dedupRows [] t.rows) i)) with
             | some m => Value.num m
             | none => Value.null) := by
          rw [numericPass_cell (nodup_numericIdxs t) hlenN hj0 i,
            if_pos ⟨hin, hnull0⟩]
        rw [hcells2 j hj1 i, if_neg (fun h => hnc h.1)]
        exact hcell1
      · -- categorical column: the cell becomes the column's mode
        have hni : i ∉ numericIdxs t :=
          categorical_not_numeric (mem_categoricalIdxs.1 hic).2
        have hcell1 : cellAt ((numericPass (numericIdxs t)
            (dedupRows [] t.rows)).getD j []) i =
            cellAt ((dedupRows [] t.rows).getD j []) i := by
          rw [numericPass_cell (nodup_numericIdxs t) hlenN hj0 i,
            if_neg (fun h => hni h.1)]
        have hnul : Value.null ∈ colAt (dedupRows [] t.rows) i :=
          mem_colAt.2 ⟨_, getD_mem hj0, hnull0⟩
        have hne : nonNullCells (colAt (dedupRows [] t.rows) i) ≠ [] := by
          intro hempty
          exact hcat i hic ((hnullcol i).1 hnul)
            (nonNullCells_eq_nil.2 ((hallcol i).1 (nonNullCells_eq_nil.1 hempty)))
        cases hmode : modeVal (nonNullCells (colAt (dedupRows [] t.rows) i)) with
        | none => exact absurd (modeVal_eq_none.1 hmode) hne
        | some m =>
          refine Or.inr ⟨(mem_categoricalIdxs.1 hic).2, m, rfl, ?_⟩
          rw [hcells2 j hj1 i,
            if_pos ⟨hic, by rw [hcell1]; exact hnull0⟩,
            numericPass_colAt_ne hni, hmode]
          rfl
    · -- surviving missing cells sit in all-missing numeric columns
      intro r hr i hi hnullcell
      rcases List.mem_iff_getElem.1 hr with ⟨j, hjlen, hjr⟩
      have hgd : rows2.getD j [] = r := by
        simp [List.getD_eq_getElem?_getD, List.getElem?_eq_getElem hjlen, hjr]
      have hj1 : j < (numericPass (numericIdxs t) (dedupRows [] t.rows)).length := by
        rw [hL1, ← hL2.trans hL1]; exact hjlen
      have hj0 : j < (dedupRows [] t.rows).length := by
        rw [← hL1]; exact hj1
      have hcell2 := hcells2 j hj1 i
      rw [hgd, hnullcell] at hcell2
      -- the categorical branch cannot produce a missing cell
      have hcase2 : ¬(i ∈ categoricalIdxs t ∧
          cellAt ((numericPass (numericIdxs t)
            (dedupRows [] t.rows)).getD j []) i = Value.null) := by
        rintro ⟨hic, hnl⟩
        rw [if_pos ⟨hic, hnl⟩] at hcell2
        have hnul1 : Value.null ∈ colAt (numericPass (numericIdxs t)
            (dedupRows [] t.rows)) i :=
          mem_colAt.2 ⟨_, getD_mem hj1, hnl⟩
        have hni : i ∉ numericIdxs t :=
          categorical_not_numeric (mem_categoricalIdxs.1 hic).2
        rw [numericPass_colAt_ne hni] at hcell2 hnul1
        have hne : nonNullCells (colAt (dedupRows [] t.rows) i) ≠ [] := by
          intro hempty
          exact hcat i hic ((hnullcol i).1 hnul1)
            (nonNullCells_eq_nil.2 ((hallcol i).1 (nonNullCells_eq_nil.1 hempty)))
        cases hmode : modeVal (nonNullCells (colAt (dedupRows [] t.rows) i)) with
        | none => exact hne (modeVal_eq_none.1 hmode)
        | some m =>
          rw [hmode] at hcell2
          have hm : m ∈ nonNullCells (colAt (dedupRows [] t.rows) i) :=
            modeVal_mem hmode
          exact (mem_nonNullCells.1 hm).2 (by simpa using hcell2.symm)
      rw [if_neg hcase2] at hcell2
      -- so the cell was already missing after the numeric pass
      have hcell1 := numericPass_cell (nodup_numericIdxs t) hlenN hj0 i
      rw [← hcell2] at hcell1
      by_cases hcase1 : i ∈ numericIdxs t ∧
          cellAt ((dedupRows [] t.rows).getD j []) i = Value.null
      · rw [if_pos hcase1] at hcell1
        have hkind : kindAt t i = ColKind.numeric := (mem_numericIdxs.1 hcase1.1).2
        cases hmed : median (ratsOf (colAt (dedupRows [] t.rows) i)) with
        | some m => rw [hmed] at hcell1; exact absurd hcell1.symm (by simp)
        | none =>
          have hrats : ratsOf (colAt (dedupRows [] t.rows) i) = [] :=
            median_eq_none.1 hmed
          refine ⟨hkind, fun r0 hr0 => ?_⟩
          have := htyped i hcase1.1 r0 hr0
          cases hv : cellAt r0 i with
          | null => rfl
          | str s => rw [hv] at this; exact absurd this (by simp [numOrNull])
          | num q =>
            exfalso
            have hq : q ∈ ratsOf (colAt (dedupRows [] t.rows) i) :=
              mem_ratsOf.2 (mem_colAt.2 ⟨r0, (hmemr r0).2 hr0, hv⟩)
            rw [hrats] at hq
            exact List.not_mem_nil q hq
      · rw [if_neg hcase1] at hcell1
        exfalso
        have hnl0 : cellAt ((dedupRows [] t.rows).getD j []) i = Value.null :=
          hcell1.symm
        have hni : i ∉ numericIdxs t := fun h => hcase1 ⟨h, hnl0⟩
        have hnc : i ∉ categoricalIdxs t := by
          intro h
          refine hcase2 ⟨h, ?_⟩
          rw [numericPass_cell (nodup_numericIdxs t) hlenN hj0 i,
            if_neg (fun hx => hni hx.1)]
          exact hnl0
        rcases kindAt_mem_cases hi with h | h
        · exact hni h
        · exact hnc h

/-- Witness for C3 at a concrete table with a missing numeric cell that
gets imputed by the median. -/
theorem c3_clean_contract_witness :
    wf exRefill ∧
    (∀ i ∈ numericIdxs exRefill, ∀ r ∈ exRefill.rows,
      numOrNull (cellAt r i) = true) ∧
    (∀ i ∈ categoricalIdxs exRefill, Value.null ∈ colAt exRefill.rows i →
      nonNullCells (colAt exRefill.rows i) ≠ []) ∧
    CleanSpec exRefill :=
  ⟨by decide, by decide, by decide,
    c3_clean_contract exRefill (by decide) (by decide) (by decide)⟩

/-! ### Lemmas about `setColWith` and the feature-engineering steps -/

theorem length_names (t : Table) : (names t).length = t.cols.length := by
  simp [names]

theorem set_indexOf_self {l : List String} {c : String} (h : c ∈ l) :
    l.set (l.indexOf c) c = l := by
  apply List.ext_getElem?
  intro n
  rw [List.getElem?_set]
  by_cases hn : l.indexOf c = n
  · subst hn
    rw [if_pos rfl, if_pos (List.indexOf_lt_length.2 h), List.getElem?_indexOf h]
  · rw [if_neg hn]

theorem names_setColWith_mem {t : Table} {c : String} (h : c ∈ names t)
    (k : ColKind) (f : List Value → Value) :
    names (setColWith t c k f) = names t := by
  rw [setColWith, if_pos h]
  show (t.cols.set ((names t).indexOf c) (c, k)).map Prod.fst = names t
  rw [List.map_set]
  exact set_indexOf_self h

theorem names_setColWith_not_mem {t : Table} {c : String} (h : c ∉ names t)
    (k : ColKind) (f : List Value → Value) :
    names (setColWith t c k f) = names t ++ [c] := by
  rw [setColWith, if_neg h]
  show (t.cols ++ [(c, k)]).map Prod.fst = names t ++ [c]
  simp [names]

theorem self_mem_names_setColWith (t : Table) (c : String) (k : ColKind)
    (f : List Value → Value) : c ∈ names (setColWith t c k f) := by
  by_cases h : c ∈ names t
  · rw [names_setColWith_mem h]; exact h
  · rw [names_setColWith_not_mem h]
    exact List.mem_append_right _ (by simp)

theorem mem_names_setColWith {t : Table} {c : String} (h : c ∈ names t)
    (d : String) (k : ColKind) (f : List Value → Value) :
    c ∈ names (setColWith t d k f) := by
  by_cases hd : d ∈ names t
  · rw [names_setColWith_mem hd]; exact h
  · rw [names_setColWith_not_mem hd]; exact List.mem_append_left _ h

theorem wf_setColWith {t : Table} (hwf : wf t) (c : String) (k : ColKind)
    (f : List Value → Value) : wf (setColWith t c k f) := by
  intro r hr
  by_cases h : c ∈ names t
  · rw [setColWith, if_pos h] at hr ⊢
    rcases List.mem_map.1 hr with ⟨r0, hr0, rfl⟩
    simp [hwf r0 hr0]
  · rw [setColWith, if_neg h] at hr ⊢
    rcases List.mem_map.1 hr with ⟨r0, hr0, rfl⟩
    simp [hwf r0 hr0]

theorem getCol_setColWith_self {t : Table} (hwf : wf t) (c : String)
    (k : ColKind) (f : List Value → Value) :
    getCol (setColWith t c k f) c = some (t.rows.map f) := by
  by_cases h : c ∈ names t
  · have hrows : (setColWith t c k f).rows =
        t.rows.map (fun r => r.set ((names t).indexOf c) (f r)) := by
      rw [setColWith, if_pos h]
    rw [getCol, names_setColWith_mem h, if_pos h, hrows]
    congr 1
    rw [colAt, List.map_map]
    apply List.map_congr_left
    intro r hr
    have hlt : (names t).indexOf c < r.length := by
      rw [hwf r hr, ← length_names]
      exact List.indexOf_lt_length.2 h
    exact cellAt_set_self hlt (f r)
  · have hrows : (setColWith t c k f).rows =
        t.rows.map (fun r => r ++ [f r]) := by
      rw [setColWith, if_neg h]
    rw [getCol, names_setColWith_not_mem h,
      if_pos (List.mem_append_right _ (by simp)), hrows]
    congr 1
    rw [List.indexOf_append_of_not_mem h, List.indexOf_cons_self]
    rw [colAt, List.map_map]
    apply List.map_congr_left
    intro r hr
    show cellAt (r ++ [f r]) ((names t).length + 0) = f r
    have hrl : r.length = (names t).length := by
      rw [hwf r hr, length_names]
    simp [cellAt, List.getD_eq_getElem?_getD, Nat.add_zero, ← hrl,
      List.getElem?_append_right (Nat.le_refl r.length)]

theorem getCol_setColWith_ne {t : Table} {c d : String} (hcd : c ≠ d)
    (hc : c ∈ names t) (hwf : wf t) (k : ColKind) (f : List Value → Value) :
    getCol (setColWith t d k f) c = getCol t c := by
  by_cases h : d ∈ names t
  · have hrows : (setColWith t d k f).rows =
        t.rows.map (fun r => r.set ((names t).indexOf d) (f r)) := by
      rw [setColWith, if_pos h]
    rw [getCol, getCol, names_setColWith_mem h, if_pos hc, if_pos hc, hrows]
    congr 1
    rw [colAt, colAt, List.map_map]
    apply List.map_congr_left
    intro r hr
    have hij : (names t).indexOf d ≠ (names t).indexOf c := by
      intro he
      exact hcd ((List.indexOf_inj h hc).1 he).symm
    exact cellAt_set_ne hij (f r)
  · have hrows : (setColWith t d k f).rows =
        t.rows.map (fun r => r ++ [f r]) := by
      rw [setColWith, if_neg h]
    rw [getCol, getCol, names_setColWith_not_mem h,
      if_pos (List.mem_append_left _ hc), if_pos hc, hrows]
    congr 1
    rw [List.indexOf_append_of_mem hc]
    rw [colAt, colAt, List.map_map]
    apply List.map_congr_left
    intro r hr
    have hlt : (names t).indexOf c < r.length := by
      rw [hwf r hr, ← length_names]
      exact List.indexOf_lt_length.2 hc
    exact cellAt_append_left hlt

theorem ageStep_facts (t : Table) (hwf : wf t) :
    wf (ageStep t) ∧
    (∀ c, c ∈ names t → c ∈ names (ageStep t)) ∧
    (∀ c, c ∈ names t → c ≠ "Age_Group" → c ≠ "Age_Group_Ordinal" →
      getCol (ageStep t) c = getCol t c) := by
  rw [ageStep]
  by_cases h : "Age" ∈ names t
  · rw [if_pos h]
    refine ⟨wf_setColWith (wf_setColWith hwf _ _ _) _ _ _,
      fun c hc => mem_names_setColWith (mem_names_setColWith hc _ _ _) _ _ _,
      fun c hc h1 h2 => ?_⟩
    rw [getCol_setColWith_ne h2 (mem_names_setColWith hc _ _ _)
        (wf_setColWith hwf _ _ _) _ _,
      getCol_setColWith_ne h1 hc hwf _ _]
  · rw [if_neg h]
    exact ⟨hwf, fun c hc => hc, fun c _ _ _ => rfl⟩

theorem purchaseStep_facts (t : Table) (hwf : wf t) :
    wf (purchaseStep t) ∧
    (∀ c, c ∈ names t → c ∈ names (purchaseStep t)) ∧
    (∀ c, c ∈ names t → c ≠ "Purchase_Category" →
      getCol (purchaseStep t) c = getCol t c) := by
  rw [purchaseStep]
  by_cases h : "Purchase Amount (USD)" ∈ names t
  · rw [if_pos h]
    exact ⟨wf_setColWith hwf _ _ _,
      fun c hc => mem_names_setColWith hc _ _ _,
      fun c hc hne => getCol_setColWith_ne hne hc hwf _ _⟩
  · rw [if_neg h]
    exact ⟨hwf, fun c hc => hc, fun c _ _ => rfl⟩

theorem discountStep_facts (t : Table) (hwf : wf t) :
    wf (discountStep t) ∧
    (∀ c, c ∈ names t → c ∈ names (discountStep t)) ∧
    (∀ c, c ∈ names t → c ≠ "Discount_or_Promo" →
      getCol (discountStep t) c = getCol t c) := by
  rw [discountStep]
  by_cases h : "Discount Applied" ∈ names t ∧ "Promo Code Used" ∈ names t
  · rw [if_pos h]
    exact ⟨wf_setColWith hwf _ _ _,
      fun c hc => mem_names_setColWith hc _ _ _,
      fun c hc hne => getCol_setColWith_ne hne hc hwf _ _⟩
  · rw [if_neg h]
    exact ⟨hwf, fun c hc => hc, fun c _ _ => rfl⟩

theorem repeatStep_facts (t : Table) (hwf : wf t) :
    wf (repeatStep t) ∧
    (∀ c, c ∈ names t → c ∈ names (repeatStep t)) ∧
    (∀ c, c ∈ names t → c ≠ "Is_Repeat_Customer" →
      getCol (repeatStep t) c = getCol t c) := by
  rw [repeatStep]
  by_cases h : "Previous Purchases" ∈ names t
  · rw [if_pos h]
    exact ⟨wf_setColWith hwf _ _ _,
      fun c hc => mem_names_setColWith hc _ _ _,
      fun c hc hne => getCol_setColWith_ne hne hc hwf _ _⟩
  · rw [if_neg h]
    exact ⟨hwf, fun c hc => hc, fun c _ _ => rfl⟩

theorem seasonStep_facts (t : Table) (hwf : wf t) :
    wf (seasonStep t) ∧
    (∀ c, c ∈ names t → c ∈ names (seasonStep t)) ∧
    (∀ c, c ∈ names t → c ≠ "Season_Category" →
      getCol (seasonStep t) c = getCol t c) := by
  rw [seasonStep]
  by_cases h : "Season" ∈ names t ∧ "Category" ∈ names t
  · rw [if_pos h]
    exact ⟨wf_setColWith hwf _ _ _,
      fun c hc => mem_names_setColWith hc _ _ _,
      fun c hc hne => getCol_setColWith_ne hne hc hwf _ _⟩
  · rw [if_neg h]
    exact ⟨hwf, fun c hc => hc, fun c _ _ => rfl⟩

theorem ageStep_age_group {t : Table} (hwf : wf t) (hage : "Age" ∈ names t) :
    getCol (ageStep t) "Age_Group" =
      some ((colAt t.rows ((names t).indexOf "Age")).map ageGroupValue) := by
  rw [ageStep, if_pos hage]
  rw [getCol_setColWith_ne (by decide) (self_mem_names_setColWith _ _ _ _)
      (wf_setColWith hwf _ _ _) _ _,
    getCol_setColWith_self hwf _ _ _]
  congr 1
  simp [colAt, List.map_map, Function.comp]

theorem ageStep_age_group_mem {t : Table} (hage : "Age" ∈ names t) :
    "Age_Group" ∈ names (ageStep t) := by
  rw [ageStep, if_pos hage]
  exact mem_names_setColWith (self_mem_names_setColWith _ _ _ _) _ _ _

/-- The `Age_Group` column `feature_engineering` produces is the cell-wise
bucketing of the input's `Age` column. -/
theorem featureEng_age_group {t : Table} (hwf : wf t)
    (hage : "Age" ∈ names t) :
    getCol (feature_engineering t) "Age_Group" =
      (getCol t "Age").map (List.map ageGroupValue) := by
  have h1 := ageStep_facts t hwf
  have h2 := purchaseStep_facts (ageStep t) h1.1
  have h3 := discountStep_facts (purchaseStep (ageStep t)) h2.1
  have h4 := repeatStep_facts (discountStep (purchaseStep (ageStep t))) h3.1
  have h5 := seasonStep_facts
    (repeatStep (discountStep (purchaseStep (ageStep t)))) h4.1
  have hm1 : "Age_Group" ∈ names (ageStep t) := ageStep_age_group_mem hage
  have hm2 := h2.2.1 _ hm1
  have hm3 := h3.2.1 _ hm2
  have hm4 := h4.2.1 _ hm3
  rw [feature_engineering,
    h5.2.2 _ hm4 (by decide),
    h4.2.2 _ hm3 (by decide),
    h3.2.2 _ hm2 (by decide),
    h2.2.2 _ hm1 (by decide),
    ageStep_age_group hwf hage,
    getCol, if_pos hage]
  rfl

/-! ### C1: the `Age_Group` bins -/

/-- C1 counterexample: `pd.cut(..., right=False)` makes the final bin
`[65, 100)` right-open as well, so Age = 100 is unbucketable: it receives
no label (`NaN`), not the label `65+` the claim asserts. -/
theorem c1_counterexample :
    ageGroup 100 = none ∧
    getCol (feature_engineering exAge100) "Age_Group" = some [Value.null] :=
  ⟨by rfl, by rfl⟩

set_option maxHeartbeats 1600000 in
/-- C1 (amended): `feature_engineering` assigns `Age_Group` by bucketing
`Age` with the bins [0,18),[18,25),[25,35),[35,45),[45,55),[55,65),[65,100)
labelled `<18`,`18-24`,`25-34`,`35-44`,`45-54`,`55-64`,`65+`, where every
bin — **including the final one** — is left-closed and right-open.
Consequently every age in [0,100) receives exactly one label, while ages
outside [0,100) — in particular Age = 100 — receive none.  The
`Age_Group` column is the cell-wise image of the `Age` column under this
bucketing. -/
theorem c1_age_group_bins :
    (∀ a : ℚ, ageGroup a = some "<18" ↔ 0 ≤ a ∧ a < 18) ∧
    (∀ a : ℚ, ageGroup a = some "18-24" ↔ 18 ≤ a ∧ a < 25) ∧
    (∀ a : ℚ, ageGroup a = some "25-34" ↔ 25 ≤ a ∧ a < 35) ∧
    (∀ a : ℚ, ageGroup a = some "35-44" ↔ 35 ≤ a ∧ a < 45) ∧
    (∀ a : ℚ, ageGroup a = some "45-54" ↔ 45 ≤ a ∧ a < 55) ∧
    (∀ a : ℚ, ageGroup a = some "55-64" ↔ 55 ≤ a ∧ a < 65) ∧
    (∀ a : ℚ, ageGroup a = some "65+" ↔ 65 ≤ a ∧ a < 100) ∧
    (∀ a : ℚ, a < 0 ∨ 100 ≤ a → ageGroup a = none) ∧
    (∀ a : ℚ, (ageGroup a).isSome ↔ 0 ≤ a ∧ a < 100) ∧
    (∀ t : Table, wf t → "Age" ∈ names t →
      getCol (feature_engineering t) "Age_Group" =
        (getCol t "Age").map (List.map ageGroupValue)) := by
  have hb1 : ∀ a : ℚ, ageGroup a = some "<18" ↔ 0 ≤ a ∧ a < 18 := by
    intro a
    simp only [ageGroup, ageBins, ageGroupLabels, cutLeftClosed]
    split_ifs <;> simp_all
  have hb2 : ∀ a : ℚ, ageGroup a = some "18-24" ↔ 18 ≤ a ∧ a < 25 := by
    intro a
    simp only [ageGroup, ageBins, ageGroupLabels, cutLeftClosed]
    split_ifs <;> simp_all <;> intros <;> try linarith
  have hb3 : ∀ a : ℚ, ageGroup a = some "25-34" ↔ 25 ≤ a ∧ a < 35 := by
    intro a
    simp only [ageGroup, ageBins, ageGroupLabels, cutLeftClosed]
    split_ifs <;> simp_all <;> intros <;> try linarith
  have hb4 : ∀ a : ℚ, ageGroup a = some "35-44" ↔ 35 ≤ a ∧ a < 45 := by
    intro a
    simp only [ageGroup, ageBins, ageGroupLabels, cutLeftClosed]
    split_ifs <;> simp_all <;> intros <;> try linarith
  have hb5 : ∀ a : ℚ, ageGroup a = some "45-54" ↔ 45 ≤ a ∧ a < 55 := by
    intro a
    simp only [ageGroup, ageBins, ageGroupLabels, cutLeftClosed]
    split_ifs <;> simp_all <;> intros <;> try linarith
  have hb6 : ∀ a : ℚ, ageGroup a = some "55-64" ↔ 55 ≤ a ∧ a < 65 := by
    intro a
    simp only [ageGroup, ageBins, ageGroupLabels, cutLeftClosed]
    split_ifs <;> simp_all <;> intros <;> try linarith
  have hb7 : ∀ a : ℚ, ageGroup a = some "65+" ↔ 65 ≤ a ∧ a < 100 := by
    intro a
    simp only [ageGroup, ageBins, ageGroupLabels, cutLeftClosed]
    split_ifs <;> simp_all <;> intros <;> try linarith
  have hnone : ∀ a : ℚ, a < 0 ∨ 100 ≤ a → ageGroup a = none := by
    intro a h
    simp only [ageGroup, ageBins, ageGroupLabels, cutLeftClosed]
    split_ifs with h1 h2 h3 h4 h5 h6 h7
    · exfalso; rcases h with h | h <;> linarith [h1.1, h1.2]
    · exfalso; rcases h with h | h <;> linarith [h2.1, h2.2]
    · exfalso; rcases h with h | h <;> linarith [h3.1, h3.2]
    · exfalso; rcases h with h | h <;> linarith [h4.1, h4.2]
    · exfalso; rcases h with h | h <;> linarith [h5.1, h5.2]
    · exfalso; rcases h with h | h <;> linarith [h6.1, h6.2]
    · exfalso; rcases h with h | h <;> linarith [h7.1, h7.2]
    · rfl
  have hsome : ∀ a : ℚ, 0 ≤ a ∧ a < 100 → (ageGroup a).isSome = true := by
    intro a h
    rcases lt_or_le a 18 with c1 | c1
    · rw [(hb1 a).2 ⟨h.1, c1⟩]; rfl
    rcases lt_or_le a 25 with c2 | c2
    · rw [(hb2 a).2 ⟨c1, c2⟩]; rfl
    rcases lt_or_le a 35 with c3 | c3
    · rw [(hb3 a).2 ⟨c2, c3⟩]; rfl
    rcases lt_or_le a 45 with c4 | c4
    · rw [(hb4 a).2 ⟨c3, c4⟩]; rfl
    rcases lt_or_le a 55 with c5 | c5
    · rw [(hb5 a).2 ⟨c4, c5⟩]; rfl
    rcases lt_or_le a 65 with c6 | c6
    · rw [(hb6 a).2 ⟨c5, c6⟩]; rfl
    · rw [(hb7 a).2 ⟨c6, h.2⟩]; rfl
  refine ⟨hb1, hb2, hb3, hb4, hb5, hb6, hb7, hnone, fun a => ⟨?_, hsome a⟩,
    fun t hwf hage => featureEng_age_group hwf hage⟩
  intro hs
  by_contra hn
  rcases not_and_or.1 hn with hn | hn
  · rw [hnone a (Or.inl (not_le.1 hn))] at hs
    exact Bool.noConfusion hs
  · rw [hnone a (Or.inr (not_lt.1 hn))] at hs
    exact Bool.noConfusion hs

/-- Witness for C1 at concrete inputs: 17 is bucketed as `<18`, 100 is
unbucketable, and on a concrete table the `Age_Group` column is the
bucketed `Age` column. -/
theorem c1_age_group_bins_witness :
    ageGroup 17 = some "<18" ∧ ageGroup 100 = none ∧
    (wf exAge100 ∧ "Age" ∈ names exAge100) ∧
    getCol (feature_engineering exAge100) "Age_Group" =
      (getCol exAge100 "Age").map (List.map ageGroupValue) :=
  ⟨(c1_age_group_bins.1 17).2 (by norm_num),
    c1_age_group_bins.2.2.2.2.2.2.2.1 100 (Or.inr (by norm_num)),
    ⟨by decide, by decide⟩,
    c1_age_group_bins.2.2.2.2.2.2.2.2.2 exAge100 (by decide) (by decide)⟩

/-! ### Lemmas about `detect_and_handle_outliers` -/

/-- Whatever a successful `handleColIqr` run does, it touches only the
cells of column `ia`: every output row arises from an input row whose
other cells are identical. -/
theorem handleColIqr_frame {threshold : ℚ} {action : String}
    {rows rows1 : List (List Value)} {ia : ℕ}
    (h : handleColIqr threshold action rows ia = Except.ok rows1) :
    ∀ r1 ∈ rows1, ∃ r ∈ rows, ∀ i, i ≠ ia → cellAt r1 i = cellAt r i := by
  simp only [handleColIqr] at h
  set s := ratsOf (colAt rows ia) with hs
  set q1 := quantile s (1/4) with hq1
  set q3 := quantile s (3/4) with hq3
  set lower := q1 - threshold * (q3 - q1) with hlow
  set upper := q3 + threshold * (q3 - q1) with hup
  split_ifs at h with h1 h2 h3 h4
  · -- cap
    rw [Except.ok.injEq] at h
    subst h
    intro r1 hr1
    rcases List.mem_map.1 hr1 with ⟨rm, hrm, rfl⟩
    rcases List.mem_map.1 hrm with ⟨r, hr, rfl⟩
    refine ⟨r, hr, fun i hi => ?_⟩
    have e2 : ∀ rm : List Value,
        cellAt (if cellAbove upper (cellAt rm ia)
                then rm.set ia (Value.num upper) else rm) i = cellAt rm i := by
      intro rm
      by_cases hp : cellAbove upper (cellAt rm ia) <;>
        simp [hp, cellAt_set_ne (fun he => hi he.symm)]
    have e1 : cellAt (if cellBelow lower (cellAt r ia)
        then r.set ia (Value.num lower) else r) i = cellAt r i := by
      by_cases hp : cellBelow lower (cellAt r ia) <;>
        simp [hp, cellAt_set_ne (fun he => hi he.symm)]
    rw [e2, e1]
  -- remove (with or without missing values), unrecognised action, or no
  -- outliers: the result is an error, a filtered subset, or the input
  all_goals
    first
      | exact Except.noConfusion h
      | (rw [Except.ok.injEq] at h
         subst h
         intro r1 hr1
         first
           | exact ⟨r1, (List.mem_filter.1 hr1).1, fun i _ => rfl⟩
           | exact ⟨r1, hr1, fun i _ => rfl⟩)

/-- Skipping the listed column names that are not in the frame changes
nothing: running on the full list equals running on the present names
only (the `continue` branch of the loop). -/
theorem detect_filter_eq (t : Table) (columns : List String) (method : String)
    (threshold : ℚ) (action : String) :
    detect_and_handle_outliers t columns method threshold action =
    detect_and_handle_outliers t
      (columns.filter (fun c => decide (c ∈ names t))) method threshold action := by
  rw [detect_and_handle_outliers, detect_and_handle_outliers]
  congr 1
  generalize t.rows = rows0
  induction columns generalizing rows0 with
  | nil => rfl
  | cons a cols ih =>
    by_cases ha : a ∈ names t
    · rw [List.filter_cons_of_pos (by simpa using ha), List.foldlM_cons,
        List.foldlM_cons]
      cases hs : (if a ∈ names t then
          if method = "iqr" then
            handleColIqr threshold action rows0 ((names t).indexOf a)
          else Except.ok rows0
        else Except.ok rows0) with
      | error e => rfl
      | ok rows1 => exact ih rows1
    · rw [List.filter_cons_of_neg (by simpa using ha), List.foldlM_cons,
        if_neg ha]
      exact ih rows0

/-- Frame property of the outlier fold: every output row arises from an
input row that agrees with it on all columns whose names are not in the
processed list. -/
theorem detectFold_frame (t : Table) (method : String) (threshold : ℚ)
    (action : String) :
    ∀ (cols : List String) (rows rows' : List (List Value)),
    (cols.foldlM (fun rows c =>
        if c ∈ names t then
          if method = "iqr" then
            handleColIqr threshold action rows ((names t).indexOf c)
          else Except.ok rows
        else Except.ok rows) rows = Except.ok rows') →
    ∀ r' ∈ rows', ∃ r ∈ rows, ∀ i < t.cols.length,
      (names t).getD i "" ∉ cols → cellAt r' i = cellAt r i := by
  intro cols
  induction cols with
  | nil =>
    intro rows rows' hok
    have h0 : rows = rows' := by
      have h1 : (Except.ok rows : Except OutlierError (List (List Value))) =
          Except.ok rows' := hok
      simpa using h1
    subst h0
    exact fun r' hr' => ⟨r', hr', fun i _ _ => rfl⟩
  | cons a cols ih =>
    intro rows rows' hok
    rw [List.foldlM_cons] at hok
    by_cases ha : a ∈ names t
    · rw [if_pos ha] at hok
      by_cases hm : method = "iqr"
      · rw [if_pos hm] at hok
        cases hs : handleColIqr threshold action rows ((names t).indexOf a) with
        | error e =>
          rw [hs] at hok
          exact Except.noConfusion hok
        | ok rows1 =>
          rw [hs] at hok
          intro r' hr'
          rcases ih rows1 rows' hok r' hr' with ⟨r1, hr1, hcell1⟩
          rcases handleColIqr_frame hs r1 hr1 with ⟨r, hr, hcell0⟩
          refine ⟨r, hr, fun i hilen hni => ?_⟩
          have hni' : (names t).getD i "" ∉ cols :=
            fun hmem => hni (List.mem_cons_of_mem a hmem)
          have hia : i ≠ (names t).indexOf a := by
            intro he
            apply hni
            have hga : (names t).getD ((names t).indexOf a) "" = a := by
              simp [List.getD_eq_getElem?_getD, List.getElem?_indexOf ha]
            rw [he, hga]
            exact List.mem_cons_self a cols
          exact (hcell1 i hilen hni').trans (hcell0 i hia)
      · rw [if_neg hm] at hok
        intro r' hr'
        rcases ih rows rows' hok r' hr' with ⟨r, hr, hcell⟩
        exact ⟨r, hr, fun i hl hni =>
          hcell i hl (fun hm2 => hni (List.mem_cons_of_mem a hm2))⟩
    · rw [if_neg ha] at hok
      intro r' hr'
      rcases ih rows rows' hok r' hr' with ⟨r, hr, hcell⟩
      exact ⟨r, hr, fun i hl hni =>
        hcell i hl (fun hm2 => hni (List.mem_cons_of_mem a hm2))⟩

/-! ### C8: unknown columns are skipped, non-target columns untouched -/

/-- C8: `detect_and_handle_outliers` raises no error for listed column
names absent from the frame — running on the full list equals running on
the present names only — and every non-target column passes through
untouched: the schema is unchanged and each output row agrees with an
input row on every column position whose name is not in the target
list. -/
theorem c8_unknown_columns_frame :
    (∀ (t : Table) (columns : List String) (method : String) (threshold : ℚ)
        (action : String),
      detect_and_handle_outliers t columns method threshold action =
      detect_and_handle_outliers t
        (columns.filter (fun c => decide (c ∈ names t))) method threshold action) ∧
    (∀ (t : Table) (columns : List String) (method : String) (threshold : ℚ)
        (action : String) (t' : Table),
      detect_and_handle_outliers t columns method threshold action =
        Except.ok t' →
      t'.cols = t.cols ∧
      ∀ r' ∈ t'.rows, ∃ r ∈ t.rows, ∀ i < t.cols.length,
        (names t).getD i "" ∉ columns → cellAt r' i = cellAt r i) := by
  refine ⟨detect_filter_eq, fun t columns method threshold action t' hok => ?_⟩
  rw [detect_and_handle_outliers] at hok
  cases hf : (columns.foldlM (fun rows c =>
      if c ∈ names t then
        if method = "iqr" then
          handleColIqr threshold action rows ((names t).indexOf c)
        else Except.ok rows
      else Except.ok rows) t.rows) with
  | error e =>
    rw [hf] at hok
    exact Except.noConfusion hok
  | ok rows' =>
    rw [hf] at hok
    have ht' : ({ t with rows := rows' } : Table) = t' := by
      have h1 : (Except.ok ({ t with rows := rows' } : Table) :
          Except OutlierError Table) = Except.ok t' := hok
      simpa using h1
    subst ht'
    exact ⟨rfl, detectFold_frame t method threshold action columns t.rows rows' hf⟩

/-- Witness for C8 at a concrete table and a list containing an unknown
column name. -/
theorem c8_unknown_columns_frame_witness :
    detect_and_handle_outliers exClean ["x", "missing"] "iqr" (3/2) "cap" =
      Except.ok exClean ∧
    (exClean.cols = exClean.cols ∧
      ∀ r' ∈ exClean.rows, ∃ r ∈ exClean.rows, ∀ i < exClean.cols.length,
        (names exClean).getD i "" ∉ ["x", "missing"] →
          cellAt r' i = cellAt r i) :=
  ⟨by with_unfolding_all rfl,
    c8_unknown_columns_frame.2 exClean ["x", "missing"] "iqr" (3/2)
    "cap" exClean (by with_unfolding_all rfl)⟩

/-! ### C10: purity of the outlier handler and the feature enricher -/

theorem detect_non_iqr (t : Table) (columns : List String) (method : String)
    (threshold : ℚ) (action : String) (h : method ≠ "iqr") :
    detect_and_handle_outliers t columns method threshold action =
      Except.ok t := by
  have hfold : ∀ cols : List String, (cols.foldlM (fun rows c =>
      if c ∈ names t then
        if method = "iqr" then
          handleColIqr threshold action rows ((names t).indexOf c)
        else Except.ok rows
      else Except.ok rows) t.rows) = Except.ok t.rows := by
    intro cols
    induction cols with
    | nil => rfl
    | cons a cols ih =>
      rw [List.foldlM_cons]
      by_cases ha : a ∈ names t
      · rw [if_pos ha, if_neg h]
        exact ih
      · rw [if_neg ha]
        exact ih
  rw [detect_and_handle_outliers, hfold]
  rfl

/-- C10: in this value-level embedding both functions are pure — the
caller's table is a value that cannot be mutated, mirroring the source's
`df.copy()` before any write — and the substantive remainder of the claim
holds: for every method other than `"iqr"` the outlier handler returns a
table equal to its input, and `feature_engineering` carries its changes
in the derived columns only, leaving the value of every other column of
the input unchanged. -/
theorem c10_no_mutation :
    (∀ (t : Table) (columns : List String) (method : String) (threshold : ℚ)
        (action : String), method ≠ "iqr" →
      detect_and_handle_outliers t columns method threshold action =
        Except.ok t) ∧
    (∀ t : Table, wf t → ∀ c ∈ names t, c ∉ derivedNames →
      getCol (feature_engineering t) c = getCol t c) := by
  refine ⟨detect_non_iqr, fun t hwf c hc hcd => ?_⟩
  have hne1 : c ≠ "Age_Group" := fun he => hcd (by rw [he]; decide)
  have hne2 : c ≠ "Age_Group_Ordinal" := fun he => hcd (by rw [he]; decide)
  have hne3 : c ≠ "Purchase_Category" := fun he => hcd (by rw [he]; decide)
  have hne4 : c ≠ "Discount_or_Promo" := fun he => hcd (by rw [he]; decide)
  have hne5 : c ≠ "Is_Repeat_Customer" := fun he => hcd (by rw [he]; decide)
  have hne6 : c ≠ "Season_Category" := fun he => hcd (by rw [he]; decide)
  have h1 := ageStep_facts t hwf
  have h2 := purchaseStep_facts (ageStep t) h1.1
  have h3 := discountStep_facts (purchaseStep (ageStep t)) h2.1
  have h4 := repeatStep_facts (discountStep (purchaseStep (ageStep t))) h3.1
  have h5 := seasonStep_facts
    (repeatStep (discountStep (purchaseStep (ageStep t)))) h4.1
  have hm1 := h1.2.1 c hc
  have hm2 := h2.2.1 c hm1
  have hm3 := h3.2.1 c hm2
  have hm4 := h4.2.1 c hm3
  rw [feature_engineering,
    h5.2.2 c hm4 hne6,
    h4.2.2 c hm3 hne5,
    h3.2.2 c hm2 hne4,
    h2.2.2 c hm1 hne3,
    h1.2.2 c hc hne1 hne2]

/-- Witness for C10 at a concrete table and a non-`"iqr"` method name. -/
theorem c10_no_mutation_witness :
    ("zscore" ≠ "iqr") ∧
    detect_and_handle_outliers exClean ["x"] "zscore" (3/2) "cap" =
      Except.ok exClean ∧
    (wf exClean ∧ "x" ∈ names exClean ∧ "x" ∉ derivedNames) ∧
    getCol (feature_engineering exClean) "x" = getCol exClean "x" :=
  ⟨by decide,
    c10_no_mutation.1 exClean ["x"] "zscore" (3/2) "cap" (by decide),
    ⟨by decide, by decide, by decide⟩,
    c10_no_mutation.2 exClean (by decide) "x" (by decide) (by decide)⟩

/-! ### Monotonicity of the interpolated quantile -/

theorem sorted_getD_mono {s : List ℚ} (hs : s.Sorted (· ≤ ·)) {i j : ℕ}
    (hij : i ≤ j) (hj : j < s.length) : s.getD i 0 ≤ s.getD j 0 := by
  have hi : i < s.length := lt_of_le_of_lt hij hj
  rw [List.getD_eq_getElem _ _ hi, List.getD_eq_getElem _ _ hj]
  have h := hs.rel_get_of_le (a := ⟨i, hi⟩) (b := ⟨j, hj⟩) hij
  simpa using h

theorem floor_toNat_le {h : ℚ} (h0 : 0 ≤ h) : (((Int.floor h).toNat : ℕ) : ℚ) ≤ h := by
  have hf : (0 : ℤ) ≤ Int.floor h := Int.floor_nonneg.2 h0
  have hc : ((Int.floor h).toNat : ℤ) = Int.floor h := Int.toNat_of_nonneg hf
  calc (((Int.floor h).toNat : ℕ) : ℚ) = ((Int.floor h : ℤ) : ℚ) := by
        exact_mod_cast hc
    _ ≤ h := Int.floor_le h

theorem lt_floor_toNat_add_one {h : ℚ} (h0 : 0 ≤ h) :
    h < (((Int.floor h).toNat : ℕ) : ℚ) + 1 := by
  have hf : (0 : ℤ) ≤ Int.floor h := Int.floor_nonneg.2 h0
  have hc : ((Int.floor h).toNat : ℤ) = Int.floor h := Int.toNat_of_nonneg hf
  have h1 : h < (Int.floor h : ℚ) + 1 := Int.lt_floor_add_one h
  have h2 : (((Int.floor h).toNat : ℕ) : ℚ) = ((Int.floor h : ℤ) : ℚ) := by
    exact_mod_cast hc
  rw [h2]
  exact h1

/-- Slope nonnegativity: the interpolation's upper anchor is at least its
lower anchor on a sorted list. -/
theorem interp_anchor_le {s : List ℚ} (hs : s.Sorted (· ≤ ·)) {lo : ℕ} :
    s.getD lo 0 ≤ s.getD (lo + 1) (s.getD lo 0) := by
  by_cases hlt : lo + 1 < s.length
  · rw [List.getD_eq_getElem _ _ hlt, ← List.getD_eq_getElem s 0 hlt]
    exact sorted_getD_mono hs (Nat.le_succ lo) hlt
  · rw [List.getD_eq_default _ _ (Nat.le_of_not_lt hlt)]

/-- Monotonicity of linear interpolation at fractional positions of a
sorted list. -/
theorem interpAt_mono {s : List ℚ} (hs : s.Sorted (· ≤ ·)) {h1 h2 : ℚ}
    (h0 : 0 ≤ h1) (h12 : h1 ≤ h2) (hup : h2 ≤ (s.length : ℚ) - 1) :
    interpAt s h1 ≤ interpAt s h2 := by
  have h0' : 0 ≤ h2 := le_trans h0 h12
  simp only [interpAt]
  set lo1 := (Int.floor h1).toNat with hlo1
  set lo2 := (Int.floor h2).toNat with hlo2
  have f1 : ((lo1 : ℕ) : ℚ) ≤ h1 := floor_toNat_le h0
  have f1' : h1 < ((lo1 : ℕ) : ℚ) + 1 := lt_floor_toNat_add_one h0
  have f2 : ((lo2 : ℕ) : ℚ) ≤ h2 := floor_toNat_le h0'
  have flo : lo1 ≤ lo2 := by
    have := Int.floor_le_floor h12
    omega
  -- the upper index stays inside the list
  have hn1 : 1 ≤ s.length := by
    by_contra hn
    have hs0 : s.length = 0 := by omega
    rw [hs0] at hup
    have : h2 ≤ -1 := by push_cast at hup; linarith
    linarith
  have flo2 : lo2 < s.length := by
    have hfle : Int.floor h2 ≤ Int.floor ((s.length : ℚ) - 1) :=
      Int.floor_le_floor hup
    have hcast : ((s.length : ℚ) - 1) = (((s.length : ℤ) - 1 : ℤ) : ℚ) := by
      push_cast; ring
    rw [hcast, Int.floor_intCast] at hfle
    omega
  have hb1 : s.getD lo1 0 ≤ s.getD (lo1 + 1) (s.getD lo1 0) :=
    interp_anchor_le hs
  have hb2 : s.getD lo2 0 ≤ s.getD (lo2 + 1) (s.getD lo2 0) :=
    interp_anchor_le hs
  by_cases heq : lo1 = lo2
  · rw [← heq]
    have hmul : (h1 - ((lo1 : ℕ) : ℚ)) * (s.getD (lo1 + 1) (s.getD lo1 0) - s.getD lo1 0) ≤
        (h2 - ((lo1 : ℕ) : ℚ)) * (s.getD (lo1 + 1) (s.getD lo1 0) - s.getD lo1 0) := by
      apply mul_le_mul_of_nonneg_right (by linarith) (by linarith)
    linarith
  · have hlt : lo1 < lo2 := lt_of_le_of_ne flo heq
    have hstep1 : lo1 + 1 < s.length := by omega
    have hbb1 : s.getD (lo1 + 1) (s.getD lo1 0) = s.getD (lo1 + 1) 0 := by
      rw [List.getD_eq_getElem _ _ hstep1, List.getD_eq_getElem _ _ hstep1]
    -- value at h1 is at most the upper anchor of its segment
    have hv1 : s.getD lo1 0 + (h1 - ((lo1 : ℕ) : ℚ)) *
        (s.getD (lo1 + 1) (s.getD lo1 0) - s.getD lo1 0) ≤
        s.getD (lo1 + 1) (s.getD lo1 0) := by
      have hfrac : (h1 - ((lo1 : ℕ) : ℚ)) ≤ 1 := by linarith
      have hsl : 0 ≤ s.getD (lo1 + 1) (s.getD lo1 0) - s.getD lo1 0 := by linarith
      nlinarith
    -- the segments are ordered
    have hmid : s.getD (lo1 + 1) 0 ≤ s.getD lo2 0 :=
      sorted_getD_mono hs (by omega) flo2
    -- value at h2 is at least the lower anchor of its segment
    have hv2 : s.getD lo2 0 ≤ s.getD lo2 0 + (h2 - ((lo2 : ℕ) : ℚ)) *
        (s.getD (lo2 + 1) (s.getD lo2 0) - s.getD lo2 0) := by
      have hfrac : 0 ≤ (h2 - ((lo2 : ℕ) : ℚ)) := by linarith
      nlinarith
    calc s.getD lo1 0 + (h1 - ((lo1 : ℕ) : ℚ)) *
          (s.getD (lo1 + 1) (s.getD lo1 0) - s.getD lo1 0)
        ≤ s.getD (lo1 + 1) (s.getD lo1 0) := hv1
      _ = s.getD (lo1 + 1) 0 := hbb1
      _ ≤ s.getD lo2 0 := hmid
      _ ≤ s.getD lo2 0 + (h2 - ((lo2 : ℕ) : ℚ)) *
          (s.getD (lo2 + 1) (s.getD lo2 0) - s.getD lo2 0) := hv2

/-- The interpolated quantile is monotone in the probability. -/
theorem quantile_mono (xs : List ℚ) {p q : ℚ} (h0 : 0 ≤ p) (hpq : p ≤ q)
    (hq1 : q ≤ 1) : quantile xs p ≤ quantile xs q := by
  by_cases hxs : xs = []
  · rw [quantile, if_pos hxs, quantile, if_pos hxs]
  · rw [quantile, if_neg hxs, quantile, if_neg hxs]
    have hlen : 1 ≤ (xs.insertionSort (· ≤ ·)).length := by
      rw [List.length_insertionSort]
      exact List.length_pos.2 hxs
    have hN : (0 : ℚ) ≤ ((xs.insertionSort (· ≤ ·)).length : ℚ) - 1 := by
      have : (1 : ℚ) ≤ ((xs.insertionSort (· ≤ ·)).length : ℚ) := by
        exact_mod_cast hlen
      linarith
    apply interpAt_mono (List.sorted_insertionSort _ xs)
    · exact mul_nonneg h0 hN
    · exact mul_le_mul_of_nonneg_right hpq hN
    · calc q * (((xs.insertionSort (· ≤ ·)).length : ℚ) - 1)
          ≤ 1 * (((xs.insertionSort (· ≤ ·)).length : ℚ) - 1) :=
            mul_le_mul_of_nonneg_right hq1 hN
        _ = ((xs.insertionSort (· ≤ ·)).length : ℚ) - 1 := one_mul _

/-- `Q1 ≤ Q3`: the quartile bounds are ordered. -/
theorem quantile_q1_le_q3 (xs : List ℚ) :
    quantile xs (1/4) ≤ quantile xs (3/4) :=
  quantile_mono xs (by norm_num) (by norm_num) (by norm_num)

/-! ### The capping action, column by column -/

theorem cellAt_ne_null_lt {r : List Value} {i : ℕ}
    (h : cellAt r i ≠ Value.null) : i < r.length := by
  by_contra hge
  rw [cellAt, List.getD_eq_default _ _ (Nat.le_of_not_lt hge)] at h
  exact h rfl

theorem colAt_ext {rows rows' : List (List Value)} {i : ℕ}
    (hL : rows'.length = rows.length)
    (hc : ∀ j < rows.length,
      cellAt (rows'.getD j []) i = cellAt (rows.getD j []) i) :
    colAt rows' i = colAt rows i := by
  apply List.ext_getElem (by simp [colAt, hL])
  intro n h1 h2
  have hn : n < rows.length := by simpa [colAt] using h2
  have hn' : n < rows'.length := by rw [hL]; exact hn
  simp only [colAt, List.getElem_map]
  have h3 := hc n hn
  rwa [List.getD_eq_getElem _ _ hn', List.getD_eq_getElem _ _ hn] at h3

/-- One capping pass: no error, same row count, the target column is
clamped cell-wise into the IQR bounds, every other column untouched. -/
theorem handleColIqr_cap {threshold : ℚ} (hth : 0 ≤ threshold)
    (rows : List (List Value)) (ia : ℕ) :
    ∃ rows2, handleColIqr threshold "cap" rows ia = Except.ok rows2 ∧
      rows2.length = rows.length ∧
      (∀ j, cellAt (rows2.getD j []) ia =
        capCell (iqrLowerOf rows ia threshold) (iqrUpperOf rows ia threshold)
          (cellAt (rows.getD j []) ia)) ∧
      (∀ j i2, i2 ≠ ia → cellAt (rows2.getD j []) i2 =
        cellAt (rows.getD j []) i2) := by
  simp only [handleColIqr, iqrLowerOf, iqrUpperOf]
  set s := ratsOf (colAt rows ia) with hs
  set q1 := quantile s (1/4) with hq1
  set q3 := quantile s (3/4) with hq3
  set lower := q1 - threshold * (q3 - q1) with hlow
  set upper := q3 + threshold * (q3 - q1) with hup
  have hq13 : q1 ≤ q3 := quantile_q1_le_q3 s
  have hlu : lower ≤ upper := by
    have hm : 0 ≤ threshold * (q3 - q1) := mul_nonneg hth (by linarith)
    rw [hlow, hup]
    linarith
  by_cases hcnt : 0 < (s.filter (isOutlier lower upper)).length
  · rw [if_pos hcnt, if_pos trivial]
    refine ⟨_, rfl, by simp, ?_, ?_⟩
    · intro j
      by_cases hj : j < rows.length
      · rw [getD_map_row _ _ (by simpa using hj), getD_map_row _ _ hj]
        set r := rows.getD j [] with hr
        cases hv : cellAt r ia with
        | null => simp [hv, cellBelow, cellAbove, capCell]
        | str st => simp [hv, cellBelow, cellAbove, capCell]
        | num q =>
          have hlen : ia < r.length := cellAt_ne_null_lt (by rw [hv]; simp)
          by_cases hc1 : q < lower
          · have hb : cellBelow lower (Value.num q) = true := by
              simp [cellBelow, hc1]
            rw [if_pos hb, cellAt_set_self hlen]
            have ha : ¬(cellAbove upper (Value.num lower) = true) := by
              simp only [cellAbove, decide_eq_true_eq, not_lt]
              exact hlu
            rw [if_neg ha, cellAt_set_self hlen]
            simp [capCell, hc1]
          · have hb : ¬(cellBelow lower (Value.num q) = true) := by
              simp [cellBelow, hc1]
            rw [if_neg hb, hv]
            by_cases hc2 : upper < q
            · have ha : cellAbove upper (Value.num q) = true := by
                simp [cellAbove, hc2]
              rw [if_pos ha, cellAt_set_self hlen]
              simp [capCell, hc1, hc2]
            · have ha : ¬(cellAbove upper (Value.num q) = true) := by
                simp [cellAbove, hc2]
              rw [if_neg ha, hv]
              simp [capCell, hc1, hc2]
      · have hj2 : rows.length ≤ j := Nat.le_of_not_lt hj
        rw [List.getD_eq_default _ _ (by simpa using hj2),
          List.getD_eq_default _ _ hj2]
        simp [cellAt, capCell]
    · intro j i2 hne
      by_cases hj : j < rows.length
      · rw [getD_map_row _ _ (by simpa using hj), getD_map_row _ _ hj]
        set r := rows.getD j [] with hr
        have e2 : ∀ x : List Value,
            cellAt (if cellAbove upper (cellAt x ia)
              then x.set ia (Value.num upper) else x) i2 = cellAt x i2 := by
          intro x
          by_cases hp : cellAbove upper (cellAt x ia) <;>
            simp [hp, cellAt_set_ne (fun he => hne he.symm)]
        have e1 : cellAt (if cellBelow lower (cellAt r ia)
            then r.set ia (Value.num lower) else r) i2 = cellAt r i2 := by
          by_cases hp : cellBelow lower (cellAt r ia) <;>
            simp [hp, cellAt_set_ne (fun he => hne he.symm)]
        rw [e2, e1]
      · have hj2 : rows.length ≤ j := Nat.le_of_not_lt hj
        rw [List.getD_eq_default _ _ (by simpa using hj2),
          List.getD_eq_default _ _ hj2]
  · rw [if_neg hcnt]
    refine ⟨rows, rfl, rfl, ?_, fun j i2 _ => rfl⟩
    intro j
    have hfilter : ∀ x ∈ s, isOutlier lower upper x = false := by
      have h0 : s.filter (isOutlier lower upper) = [] := by
        cases hf : s.filter (isOutlier lower upper) with
        | nil => rfl
        | cons y ys => exfalso; apply hcnt; rw [hf]; simp
      intro x hx
      by_contra hxf
      have hmemf : x ∈ s.filter (isOutlier lower upper) :=
        List.mem_filter.2 ⟨hx, by simpa using hxf⟩
      rw [h0] at hmemf
      exact List.not_mem_nil x hmemf
    by_cases hj : j < rows.length
    · cases hv : cellAt (rows.getD j []) ia with
      | null => simp [capCell]
      | str st => simp [capCell]
      | num q =>
        have hqs : q ∈ s := by
          rw [hs]
          exact mem_ratsOf.2 (mem_colAt.2 ⟨_, getD_mem hj, hv⟩)
        have hout := hfilter q hqs
        simp only [isOutlier, Bool.or_eq_false_iff, decide_eq_false_iff_not,
          not_lt] at hout
        simp [capCell, not_lt.2 hout.1, not_lt.2 hout.2]
    · have hj2 : rows.length ≤ j := Nat.le_of_not_lt hj
      rw [List.getD_eq_default _ _ hj2]
      simp [cellAt, capCell]

/-- The capping fold over a duplicate-free column list: no error, row
count preserved, every present target column clamped cell-wise with
bounds computed on the rows the fold started from, all other columns
untouched. -/
theorem capFold (t : Table) {threshold : ℚ} (hth : 0 ≤ threshold) :
    ∀ (cols : List String), cols.Nodup → ∀ rows : List (List Value),
    ∃ rows2, (cols.foldlM (fun rows c =>
        if c ∈ names t then
          if "iqr" = "iqr" then
            handleColIqr threshold "cap" rows ((names t).indexOf c)
          else Except.ok rows
        else Except.ok rows) rows = Except.ok rows2) ∧
      rows2.length = rows.length ∧
      (∀ c ∈ cols, c ∈ names t → ∀ j,
        cellAt (rows2.getD j []) ((names t).indexOf c) =
          capCell (iqrLowerOf rows ((names t).indexOf c) threshold)
            (iqrUpperOf rows ((names t).indexOf c) threshold)
            (cellAt (rows.getD j []) ((names t).indexOf c))) ∧
      (∀ i2, (∀ c ∈ cols, c ∈ names t → i2 ≠ (names t).indexOf c) →
        ∀ j, cellAt (rows2.getD j []) i2 = cellAt (rows.getD j []) i2) := by
  intro cols
  induction cols with
  | nil =>
    intro _ rows
    exact ⟨rows, rfl, rfl, fun c hc => absurd hc (List.not_mem_nil c),
      fun i2 _ j => rfl⟩
  | cons a cols ih =>
    intro hnd rows
    have hand : a ∉ cols := (List.nodup_cons.1 hnd).1
    have hnd' : cols.Nodup := (List.nodup_cons.1 hnd).2
    by_cases ha : a ∈ names t
    · rcases handleColIqr_cap hth rows ((names t).indexOf a) with
        ⟨rows1, hstep, hlen1, hcap1, hframe1⟩
      rcases ih hnd' rows1 with ⟨rows2, hfold, hlen2, hcap2, hframe2⟩
      refine ⟨rows2, ?_, hlen2.trans hlen1, ?_, ?_⟩
      · rw [List.foldlM_cons, if_pos ha, if_pos rfl, hstep]
        exact hfold
      · intro c hc hcn j
        rcases List.mem_cons.1 hc with rfl | hc'
        · have hii : ∀ c' ∈ cols, c' ∈ names t →
              (names t).indexOf c ≠ (names t).indexOf c' := by
            intro c' hc2 hcn2 he
            exact hand (((List.indexOf_inj hcn hcn2).1 he) ▸ hc2)
          rw [hframe2 _ hii j]
          exact hcap1 j
        · have hcne : c ≠ a := fun he => hand (he ▸ hc')
          have hidx : (names t).indexOf c ≠ (names t).indexOf a := by
            intro he
            exact hcne ((List.indexOf_inj hcn ha).1 he)
          have hcolpres : colAt rows1 ((names t).indexOf c) =
              colAt rows ((names t).indexOf c) :=
            colAt_ext hlen1 (fun j2 _ => hframe1 j2 _ hidx)
          rw [hcap2 c hc' hcn j,
            show iqrLowerOf rows1 ((names t).indexOf c) threshold =
              iqrLowerOf rows ((names t).indexOf c) threshold from by
                rw [iqrLowerOf, iqrLowerOf, hcolpres],
            show iqrUpperOf rows1 ((names t).indexOf c) threshold =
              iqrUpperOf rows ((names t).indexOf c) threshold from by
                rw [iqrUpperOf, iqrUpperOf, hcolpres],
            hframe1 j _ hidx]
      · intro i2 hi2 j
        rw [hframe2 i2 (fun c hc hcn => hi2 c (List.mem_cons_of_mem a hc) hcn) j,
          hframe1 j i2 (hi2 a (List.mem_cons_self a cols) ha)]
    · rcases ih hnd' rows with ⟨rows2, hfold, hlen2, hcap2, hframe2⟩
      refine ⟨rows2, ?_, hlen2, ?_, ?_⟩
      · rw [List.foldlM_cons, if_neg ha]
        exact hfold
      · intro c hc hcn j
        rcases List.mem_cons.1 hc with rfl | hc'
        · exact absurd hcn ha
        · exact hcap2 c hc' hcn j
      · intro i2 hi2 j
        exact hframe2 i2 (fun c hc hcn => hi2 c (List.mem_cons_of_mem a hc) hcn) j

/-! ### C5: the capping contract -/

/-- C5: for every table and duplicate-free target-column list, with
`method="iqr"`, `action="cap"` and a nonnegative multiplier `k`,
`detect_and_handle_outliers` returns a table with exactly the same
number of rows, in which each present target column's numeric values
below `Q1 - k*IQR` are set to `Q1 - k*IQR` and above `Q3 + k*IQR` are
set to `Q3 + k*IQR`, with bounds computed per column over that column's
non-missing values; no rows are deleted, and missing cells stay
missing.  (The in-place double assignment of the source — the second
read seeing the first write — is equivalent to the clamp because
`Q1 ≤ Q3` makes the bounds ordered.) -/
theorem c5_cap_contract (t : Table) (columns : List String) (threshold : ℚ)
    (hth : 0 ≤ threshold) (hnd : columns.Nodup) :
    CapSpec t columns threshold := by
  rcases capFold t hth columns hnd t.rows with ⟨rows2, hfold, hlen, hcap, _⟩
  refine ⟨{ t with rows := rows2 }, ?_, rfl, hlen, ?_⟩
  · rw [detect_and_handle_outliers, hfold]
    rfl
  · intro c hc hcn j
    exact hcap c hc hcn j

/-- Witness for C5 at a concrete table whose column `[1,1,1,1,1,1,1,100]`
has `Q1 = Q3 = 1`, so the value 100 is capped down to 1. -/
theorem c5_cap_contract_witness :
    (0 : ℚ) ≤ 3/2 ∧ (["x"] : List String).Nodup ∧ CapSpec exCap ["x"] (3/2) :=
  ⟨by norm_num, by decide, c5_cap_contract exCap ["x"] (3/2) (by norm_num) (by decide)⟩

/-! ### The removal action, column by column -/

/-- One removal pass on a column without missing values: no alignment
error, and the result is exactly the rows whose value in the column lies
inside the IQR bounds. -/
theorem handleColIqr_remove {threshold : ℚ} {rows : List (List Value)}
    {ia : ℕ} (hnum : ∀ r ∈ rows, isNumCell (cellAt r ia) = true) :
    handleColIqr threshold "remove" rows ia = Except.ok
      (rows.filter (fun r => match cellAt r ia with
        | .num q => decide (iqrLowerOf rows ia threshold ≤ q ∧
            q ≤ iqrUpperOf rows ia threshold)
        | _ => true)) := by
  simp only [handleColIqr, iqrLowerOf, iqrUpperOf]
  set s := ratsOf (colAt rows ia) with hs
  set q1 := quantile s (1/4) with hq1
  set q3 := quantile s (3/4) with hq3
  set lower := q1 - threshold * (q3 - q1) with hlow
  set upper := q3 + threshold * (q3 - q1) with hup
  have hnonull : ¬ (Value.null ∈ colAt rows ia) := by
    intro hmem
    rcases mem_colAt.1 hmem with ⟨r, hr, hcell⟩
    have hn := hnum r hr
    rw [hcell] at hn
    simp [isNumCell] at hn
  have hpred : ∀ r ∈ rows, (!cellOutlier lower upper (cellAt r ia)) =
      (match cellAt r ia with
        | .num q => decide (lower ≤ q ∧ q ≤ upper)
        | _ => true) := by
    intro r hr
    cases hv : cellAt r ia with
    | num q =>
      show (!isOutlier lower upper q) = decide (lower ≤ q ∧ q ≤ upper)
      rw [isOutlier]
      by_cases h1 : q < lower
      · simp [h1, not_le.2 h1]
      · by_cases h2 : upper < q
        · simp [h1, h2, not_le.2 h2]
        · simp [h1, h2, not_lt.1 h1, not_lt.1 h2]
    | str st =>
      have hn := hnum r hr
      rw [hv] at hn
      simp [isNumCell] at hn
    | null =>
      have hn := hnum r hr
      rw [hv] at hn
      simp [isNumCell] at hn
  by_cases hcnt : 0 < (s.filter (isOutlier lower upper)).length
  · rw [if_pos hcnt]
    have hra : ¬(("remove" : String) = "cap") := by decide
    rw [if_neg hra, if_pos trivial, if_neg hnonull]
    exact congrArg Except.ok (List.filter_congr hpred)
  · rw [if_neg hcnt]
    refine congrArg Except.ok ?_
    symm
    apply List.filter_eq_self.2
    intro r hr
    have hn := hnum r hr
    cases hv : cellAt r ia with
    | num q =>
      have hqs : q ∈ s := by
        rw [hs]
        exact mem_ratsOf.2 (mem_colAt.2 ⟨r, hr, hv⟩)
      have hout : isOutlier lower upper q = false := by
        by_contra hne
        apply hcnt
        have hmemf : q ∈ s.filter (isOutlier lower upper) :=
          List.mem_filter.2 ⟨hqs, by simpa using hne⟩
        cases hf : s.filter (isOutlier lower upper) with
        | nil => rw [hf] at hmemf; exact absurd hmemf (List.not_mem_nil q)
        | cons y ys => simp
      simp only [isOutlier, Bool.or_eq_false_iff, decide_eq_false_iff_not,
        not_lt] at hout
      simp only [hv]
      rw [decide_eq_true_eq]
      exact ⟨hout.1, hout.2⟩
    | str st => simp [isNumCell, hv] at hn
    | null => simp [isNumCell, hv] at hn

/-- The removal fold over present, missing-value-free target columns is
exactly the claim's sequential per-column filter, and the surviving rows
are a subsequence of the input. -/
theorem removeFold (t : Table) (threshold : ℚ) :
    ∀ (cols : List String) (rows : List (List Value)),
    (∀ c ∈ cols, c ∈ names t) →
    (∀ c ∈ cols, ∀ r ∈ rows,
      isNumCell (cellAt r ((names t).indexOf c)) = true) →
    (cols.foldlM (fun rows c =>
        if c ∈ names t then
          if "iqr" = "iqr" then
            handleColIqr threshold "remove" rows ((names t).indexOf c)
          else Except.ok rows
        else Except.ok rows) rows =
      Except.ok (removeSpecRows (names t) threshold cols rows)) ∧
    (removeSpecRows (names t) threshold cols rows).Sublist rows := by
  intro cols
  induction cols with
  | nil =>
    intro rows _ _
    exact ⟨rfl, List.Sublist.refl rows⟩
  | cons a cols ih =>
    intro rows hpres hnum
    have ha : a ∈ names t := hpres a (List.mem_cons_self a cols)
    have hnuma : ∀ r ∈ rows, isNumCell (cellAt r ((names t).indexOf a)) = true :=
      hnum a (List.mem_cons_self a cols)
    have hstep := @handleColIqr_remove threshold _ _ hnuma
    have hspec : removeSpecRows (names t) threshold (a :: cols) rows =
        removeSpecRows (names t) threshold cols
          (rows.filter (fun r => match cellAt r ((names t).indexOf a) with
            | .num q => decide (iqrLowerOf rows ((names t).indexOf a) threshold ≤ q ∧
                q ≤ iqrUpperOf rows ((names t).indexOf a) threshold)
            | _ => true)) := rfl
    have hsub1 : (rows.filter (fun r => match cellAt r ((names t).indexOf a) with
        | .num q => decide (iqrLowerOf rows ((names t).indexOf a) threshold ≤ q ∧
            q ≤ iqrUpperOf rows ((names t).indexOf a) threshold)
        | _ => true)).Sublist rows := List.filter_sublist rows
    have hnum' : ∀ c ∈ cols, ∀ r ∈ rows.filter (fun r =>
        match cellAt r ((names t).indexOf a) with
        | .num q => decide (iqrLowerOf rows ((names t).indexOf a) threshold ≤ q ∧
            q ≤ iqrUpperOf rows ((names t).indexOf a) threshold)
        | _ => true),
        isNumCell (cellAt r ((names t).indexOf c)) = true :=
      fun c hc r hr =>
        hnum c (List.mem_cons_of_mem a hc) r (List.mem_of_mem_filter hr)
    rcases ih _ (fun c hc => hpres c (List.mem_cons_of_mem a hc)) hnum' with
      ⟨hfold, hsub⟩
    refine ⟨?_, ?_⟩
    · rw [List.foldlM_cons, if_pos ha, if_pos rfl, hstep, hspec]
      exact hfold
    · rw [hspec]
      exact hsub.trans hsub1

/-! ### C2: the removal contract -/

/-- C2 counterexample: on a target column containing both an outlier and
a missing value, `detect_and_handle_outliers` with `action="remove"` does
not return a table at all — the boolean mask is indexed by the
`dropna()`-ed series and cannot be aligned with the frame, so the call
fails — contradicting the claim that the filtered table is returned. -/
theorem c2_remove_counterexample :
    detect_and_handle_outliers exRemoveNaN ["x"] "iqr" (3/2) "remove" =
      Except.error OutlierError.unalignable := by
  with_unfolding_all rfl

/-- C2 (amended): for every table, multiplier and list of target columns
all present in the table, **provided the target columns contain no
missing values**, `detect_and_handle_outliers` with `method="iqr"`,
`action="remove"` returns the table whose rows are exactly the input
rows (in original order) surviving, for each target column in the
caller's list order, the filter dropping rows whose value lies outside
`[Q1 - k*IQR, Q3 + k*IQR]` computed over the column's values in the
table as already shrunk by earlier columns' removals; the row count
never increases.  (When a target column holds both a missing value and
an out-of-bounds value, the call instead fails on mask alignment —
`c2_remove_counterexample`.) -/
theorem c2_remove_contract (t : Table) (columns : List String)
    (threshold : ℚ) (hpres : ∀ c ∈ columns, c ∈ names t)
    (hnum : ∀ c ∈ columns, ∀ r ∈ t.rows,
      isNumCell (cellAt r ((names t).indexOf c)) = true) :
    RemoveSpec t columns threshold := by
  rcases removeFold t threshold columns t.rows hpres hnum with ⟨hfold, hsub⟩
  refine ⟨?_, hsub, hsub.length_le⟩
  rw [detect_and_handle_outliers, hfold]
  rfl

/-- Witness for C2 at a concrete table `[1,1,1,1,100]` without missing
values: the outlier row is removed. -/
theorem c2_remove_contract_witness :
    (∀ c ∈ (["x"] : List String), c ∈ names exRemove) ∧
    (∀ c ∈ (["x"] : List String), ∀ r ∈ exRemove.rows,
      isNumCell (cellAt r ((names exRemove).indexOf c)) = true) ∧
    RemoveSpec exRemove ["x"] (3/2) :=
  ⟨by decide, by decide,
    c2_remove_contract exRemove ["x"] (3/2) (by decide) (by decide)⟩

/-! ### Label encoding: the fitted classes and their codes -/

theorem sortedClasses_perm (xs : List String) :
    List.Perm (sortedClasses xs) xs.dedup :=
  List.perm_insertionSort _ _

theorem sortedClasses_nodup (xs : List String) : (sortedClasses xs).Nodup :=
  (sortedClasses_perm xs).nodup_iff.2 (List.nodup_dedup xs)

theorem sortedClasses_sorted (xs : List String) :
    (sortedClasses xs).Sorted (· ≤ ·) :=
  List.sorted_insertionSort _ _

theorem sortedClasses_sorted_lt (xs : List String) :
    (sortedClasses xs).Sorted (· < ·) :=
  (sortedClasses_sorted xs).lt_of_le (sortedClasses_nodup xs)

theorem mem_sortedClasses {xs : List String} {s : String} :
    s ∈ sortedClasses xs ↔ s ∈ xs := by
  rw [sortedClasses, List.mem_insertionSort, List.mem_dedup]

theorem sortedClasses_length (xs : List String) :
    (sortedClasses xs).length = xs.dedup.length :=
  (sortedClasses_perm xs).length_eq

/-- The code bijection contract holds for every column. -/
theorem labelCodeSpec_holds (xs : List String) : LabelCodeSpec xs := by
  refine ⟨?_, ?_, ?_, ?_⟩
  · intro s hs
    rw [← sortedClasses_length]
    exact List.indexOf_lt_length.2 (mem_sortedClasses.2 hs)
  · intro s hs u hu
    exact List.indexOf_inj (mem_sortedClasses.2 hs) (mem_sortedClasses.2 hu)
  · intro k hk
    rw [← sortedClasses_length] at hk
    refine ⟨(sortedClasses xs).get ⟨k, hk⟩,
      mem_sortedClasses.1 (List.get_mem _ _ _), ?_⟩
    have hmem : (sortedClasses xs).get ⟨k, hk⟩ ∈ sortedClasses xs :=
      List.get_mem _ _ _
    have hget : (sortedClasses xs).get
        ⟨(sortedClasses xs).indexOf ((sortedClasses xs).get ⟨k, hk⟩),
          List.indexOf_lt_length.2 hmem⟩ =
        (sortedClasses xs).get ⟨k, hk⟩ := List.indexOf_get _
    have := ((sortedClasses_nodup xs).get_inj_iff).1 hget
    exact congrArg Fin.val this
  · intro s hs u hu hsu
    have hs' : s ∈ sortedClasses xs := mem_sortedClasses.2 hs
    have hu' : u ∈ sortedClasses xs := mem_sortedClasses.2 hu
    have hsl : (sortedClasses xs).indexOf s < (sortedClasses xs).length :=
      List.indexOf_lt_length.2 hs'
    have hul : (sortedClasses xs).indexOf u < (sortedClasses xs).length :=
      List.indexOf_lt_length.2 hu'
    rcases Nat.lt_trichotomy ((sortedClasses xs).indexOf s)
      ((sortedClasses xs).indexOf u) with h | h | h
    · exact h
    · exfalso
      exact absurd ((List.indexOf_inj hs' hu').1 h) (ne_of_lt hsu)
    · exfalso
      have hlt := (sortedClasses_sorted_lt xs).rel_get_of_lt
        (a := ⟨(sortedClasses xs).indexOf u, hul⟩)
        (b := ⟨(sortedClasses xs).indexOf s, hsl⟩) h
      rw [List.indexOf_get, List.indexOf_get] at hlt
      exact absurd hsu (not_lt.2 (le_of_lt hlt))

/-! ### The label-encoding fold -/

theorem names_encodeStep (tb : Table) (c : String) :
    names (encodeStep tb c) = names tb := by
  rw [encodeStep]
  by_cases h : c ∈ names tb
  · rw [if_pos h, names_setColWith_mem h]
  · rw [if_neg h]

theorem wf_encodeStep {tb : Table} (hwf : wf tb) (c : String) :
    wf (encodeStep tb c) := by
  rw [encodeStep]
  by_cases h : c ∈ names tb
  · rw [if_pos h]
    exact wf_setColWith hwf _ _ _
  · rw [if_neg h]
    exact hwf

theorem getCol_encodeStep_ne {tb : Table} {c d : String} (hcd : c ≠ d)
    (hc : c ∈ names tb) (hwf : wf tb) :
    getCol (encodeStep tb d) c = getCol tb c := by
  rw [encodeStep]
  by_cases h : d ∈ names tb
  · rw [if_pos h]
    exact getCol_setColWith_ne hcd hc hwf _ _
  · rw [if_neg h]

theorem getCol_encodeStep_self {tb : Table} {c : String} (hc : c ∈ names tb)
    (hwf : wf tb) :
    getCol (encodeStep tb c) c =
      some (((colAt tb.rows ((names tb).indexOf c)).map vStr).map
        (fun s => Value.num (((sortedClasses
          ((colAt tb.rows ((names tb).indexOf c)).map vStr)).indexOf s : ℕ) : ℚ))) := by
  rw [encodeStep, if_pos hc, getCol_setColWith_self hwf _ _ _]
  congr 1
  simp [colAt, List.map_map, Function.comp]

theorem encodeFold_getCol (colsLabel : List String) :
    ∀ tb : Table, wf tb →
    (∀ c, c ∈ names tb → c ∉ colsLabel →
      getCol (encode_categorical_labels tb colsLabel) c = getCol tb c) ∧
    (colsLabel.Nodup → ∀ c ∈ colsLabel, c ∈ names tb →
      getCol (encode_categorical_labels tb colsLabel) c =
        some (((colAt tb.rows ((names tb).indexOf c)).map vStr).map
          (fun s => Value.num (((sortedClasses
            ((colAt tb.rows ((names tb).indexOf c)).map vStr)).indexOf s : ℕ) : ℚ)))) := by
  induction colsLabel with
  | nil =>
    intro tb _
    exact ⟨fun c _ _ => rfl, fun _ c hc => absurd hc (List.not_mem_nil c)⟩
  | cons d rest ih =>
    intro tb hwf
    have hwf' : wf (encodeStep tb d) := wf_encodeStep hwf d
    have hnames : names (encodeStep tb d) = names tb := names_encodeStep tb d
    have hcons : encode_categorical_labels tb (d :: rest) =
        encode_categorical_labels (encodeStep tb d) rest := rfl
    rcases ih (encodeStep tb d) hwf' with ⟨ihskip, ihenc⟩
    constructor
    · intro c hc hcnot
      have hcd : c ≠ d := fun he => hcnot (he ▸ List.mem_cons_self d rest)
      have hcrest : c ∉ rest := fun hm => hcnot (List.mem_cons_of_mem d hm)
      rw [hcons, ihskip c (hnames ▸ hc) hcrest,
        getCol_encodeStep_ne hcd hc hwf]
    · intro hnd c hc hcn
      have hand : d ∉ rest := (List.nodup_cons.1 hnd).1
      have hnd' : rest.Nodup := (List.nodup_cons.1 hnd).2
      rcases List.mem_cons.1 hc with rfl | hcr
      · rw [hcons, ihskip c (hnames ▸ hcn) hand]
        exact getCol_encodeStep_self hcn hwf
      · have hcd : c ≠ d := fun he => hand (he ▸ hcr)
        have heq : getCol (encodeStep tb d) c = getCol tb c :=
          getCol_encodeStep_ne hcd hcn hwf
        have hcn' : c ∈ names (encodeStep tb d) := hnames ▸ hcn
        have hcols : colAt (encodeStep tb d).rows
            ((names (encodeStep tb d)).indexOf c) =
            colAt tb.rows ((names tb).indexOf c) := by
          have h1 : getCol (encodeStep tb d) c =
              some (colAt (encodeStep tb d).rows
                ((names (encodeStep tb d)).indexOf c)) := by
            rw [getCol, if_pos hcn']
          have h2 : getCol tb c =
              some (colAt tb.rows ((names tb).indexOf c)) := by
            rw [getCol, if_pos hcn]
          rw [h1, h2] at heq
          exact Option.some.inj heq
        rw [hcons, ihenc hnd' c hcr hcn', hcols]

/-! ### C7: label encoding is a sorted bijection onto `0..n-1` -/

/-- C7: for every table and every column of the label-encoding list that
is present in the table, `encode_categorical` replaces the column's
values by the codes of their string casts, and the code assignment is a
bijection from the column's distinct (string-cast) values onto the
contiguous range `0..n-1` that follows the sorted order of the distinct
values at fit time (`LabelEncoder.classes_` is the sorted unique array).
Stated for duplicate-free encoding lists. -/
theorem c7_label_encoding (t : Table) (colsLabel : List String) (c : String)
    (hwf : wf t) (hnd : colsLabel.Nodup) (hc : c ∈ colsLabel)
    (hcn : c ∈ names t) :
    getCol (encode_categorical_labels t colsLabel) c =
      some (((colAt t.rows ((names t).indexOf c)).map vStr).map
        (fun s => Value.num (((sortedClasses
          ((colAt t.rows ((names t).indexOf c)).map vStr)).indexOf s : ℕ) : ℚ))) ∧
    LabelCodeSpec ((colAt t.rows ((names t).indexOf c)).map vStr) :=
  ⟨(encodeFold_getCol colsLabel t hwf).2 hnd c hc hcn,
    labelCodeSpec_holds _⟩

/-- Witness for C7 at a concrete column `["b", "a", "b"]`, whose fitted
classes are `["a", "b"]` and whose codes are `[1, 0, 1]`. -/
theorem c7_label_encoding_witness :
    wf exEncode ∧ (["c"] : List String).Nodup ∧
    (getCol (encode_categorical_labels exEncode ["c"]) "c" =
      some (((colAt exEncode.rows ((names exEncode).indexOf "c")).map vStr).map
        (fun s => Value.num (((sortedClasses
          ((colAt exEncode.rows ((names exEncode).indexOf "c")).map vStr)).indexOf s : ℕ) : ℚ))) ∧
     LabelCodeSpec ((colAt exEncode.rows ((names exEncode).indexOf "c")).map vStr)) :=
  ⟨by decide, by decide,
    c7_label_encoding exEncode ["c"] "c" (by decide) (by decide) (by decide)
      (by decide)⟩

end ShopBehavior
